import Mathlib

/-!
Verification of the configuration-resolution engine of `tox/config.py`
(environment-name expansion, factor-conditional line filtering, the
template-substitution resolver with cycle detection, the setenv mapping,
and the command tokenizer / argv-list builder).

Strings are embedded as `List Char` (Python `str`), machine-faithfully:
every definition below mirrors one Python function of the source, with
Python regular expressions replaced by explicit scanners implementing the
leftmost-match, greedy-with-backtracking semantics of the `re` module on
the concrete pattern in question.
-/

namespace Tox

/-- Python strings are modelled as lists of characters. -/
abbrev Str := List Char

/-- Characters Python `str.strip()` / `\s` treat as whitespace. -/
def pyIsSpace (c : Char) : Bool :=
  c = ' ' || c = '\t' || c = '\n' || c = '\x0d' || c = '\x0b' || c = '\x0c'

/-- Python `str.strip()`: drop leading and trailing whitespace. -/
def pyStrip (s : Str) : Str :=
  ((s.dropWhile pyIsSpace).reverse.dropWhile pyIsSpace).reverse

/-- Python `str.rstrip()`: drop trailing whitespace. -/
def pyRstrip (s : Str) : Str :=
  (s.reverse.dropWhile pyIsSpace).reverse

/-- Characters Python `str.splitlines()` breaks on (`\r\n` is one break). -/
def isLineBreak (c : Char) : Bool :=
  c = '\n' || c = '\x0d' || c = '\x0b' || c = '\x0c'

/-- Worker for `pySplitlines`; `cur` is the current line, reversed. -/
def splitlinesGo (cur : Str) : Str → List Str
  | [] => [cur.reverse]
  | '\x0d' :: '\n' :: rest =>
      cur.reverse :: (if rest.isEmpty then [] else splitlinesGo [] rest)
  | c :: rest =>
      if isLineBreak c then
        cur.reverse :: (if rest.isEmpty then [] else splitlinesGo [] rest)
      else splitlinesGo (c :: cur) rest

/-- Python `str.splitlines()` (no trailing empty line, `""` gives `[]`). -/
def pySplitlines (s : Str) : List Str :=
  if s.isEmpty then [] else splitlinesGo [] s

/-- Python `str.split(sep)` for a one-character separator (keeps empties). -/
def splitOn (sep : Char) : Str → List Str
  | [] => [[]]
  | c :: cs =>
      if c = sep then [] :: splitOn sep cs
      else match splitOn sep cs with
        | [] => [[c]]
        | t :: ts => (c :: t) :: ts

/-- Maximal run of characters satisfying `p`: returns `(run, rest)`. -/
def takeRun (p : Char → Bool) : Str → Str × Str
  | [] => ([], [])
  | c :: cs =>
      if p c then
        let r := takeRun p cs
        (c :: r.1, r.2)
      else ([], c :: cs)

/-- Association-list lookup (Python `dict` access on string keys). -/
def lookupA (k : Str) : List (Str × Str) → Option Str
  | [] => none
  | (k₀, v) :: rest => if k₀ = k then some v else lookupA k rest

/-- Join a list of strings with a separator character (`sep.join(...)`). -/
def joinWith (sep : Char) : List Str → Str
  | [] => []
  | [l] => l
  | l :: ls => l ++ sep :: joinWith sep ls

/-!
## Environment name expansion (`_expand_envstr`, config.py:857)

`_expand_envstr` first runs `re.split(r'((?:\{[^}]+\})+)|,', envstr)`,
giving the non-match pieces interleaved with either the captured run of
brace groups (a string) or `None` for a comma separator; it then joins
maximal runs of truthy tokens (via `itertools.groupby(key=bool)`),
strips each, and expands each result by a Cartesian product over its
brace groups.
-/

/-- One `\{[^}]+\}` unit: a brace, a nonempty run of non-`}`, a brace.
Returns the consumed characters and the rest on success. -/
def braceUnit (cs : Str) : Option (Str × Str) :=
  match cs with
  | '{' :: rest =>
      let r := takeRun (fun c => !(c = '}')) rest
      match r.1, r.2 with
      | [], _ => none
      | run, '}' :: rest₂ => some ('{' :: run ++ ['}'], rest₂)
      | _, _ => none
  | _ => none

/-- Greedy `(?:\{[^}]+\})+` starting with one already-consumed unit. -/
def braceRunGo : Nat → Str → Str → Str × Str
  | 0, acc, cs => (acc, cs)
  | fuel + 1, acc, cs =>
      match braceUnit cs with
      | some (u, rest) => braceRunGo fuel (acc ++ u) rest
      | none => (acc, cs)

/-- Match `(?:\{[^}]+\})+` at the head of `cs`. -/
def braceRun (cs : Str) : Option (Str × Str) :=
  match braceUnit cs with
  | some (u, rest) =>
      let r := braceRunGo rest.length u rest
      some (r.1, r.2)
  | none => none

/-- Tokens produced by `re.split(r'((?:\{[^}]+\})+)|,', s)`: pieces are
`some`, captured brace runs are `some`, comma separators contribute the
group value `None` (`none`).  `cur` is the current piece, reversed. -/
def envTokensGo : Nat → Str → Str → List (Option Str)
  | _, cur, [] => [some cur.reverse]
  | 0, cur, cs => [some (cur.reverse ++ cs)]
  | fuel + 1, cur, c :: cs =>
      if c = ',' then some cur.reverse :: none :: envTokensGo fuel [] cs
      else match braceRun (c :: cs) with
        | some (run, rest) =>
            some cur.reverse :: some run :: envTokensGo fuel [] rest
        | none => envTokensGo fuel (c :: cur) cs

/-- The token list of `re.split(r'((?:\{[^}]+\})+)|,', s)`. -/
def envTokens (s : Str) : List (Option Str) :=
  envTokensGo (s.length + 1) [] s

/-- Python truthiness of a `re.split` token (`None` and `""` are falsy). -/
def tokTruthy : Option Str → Bool
  | none => false
  | some s => !s.isEmpty

def tokStr : Option Str → Str
  | none => []
  | some s => s

/-- Join maximal runs of truthy tokens and strip each; falsy tokens are
dropped and break runs (the `itertools.groupby(key=bool)` comprehension
in `_expand_envstr`).  `acc` is the joined current run, if any. -/
def joinRunsGo : Option Str → List (Option Str) → List Str
  | none, [] => []
  | some acc, [] => [pyStrip acc]
  | none, t :: ts =>
      if tokTruthy t then joinRunsGo (some (tokStr t)) ts
      else joinRunsGo none ts
  | some acc, t :: ts =>
      if tokTruthy t then joinRunsGo (some (acc ++ tokStr t)) ts
      else pyStrip acc :: joinRunsGo none ts

def joinRuns (ts : List (Option Str)) : List Str :=
  joinRunsGo none ts

/-- Tokens of `re.split(r'\{([^}]+)\}', env)`: non-match pieces
interleaved with the captured group contents.  `cur` is reversed. -/
def innerTokensGo : Nat → Str → Str → List Str
  | _, cur, [] => [cur.reverse]
  | 0, cur, cs => [cur.reverse ++ cs]
  | fuel + 1, cur, c :: cs =>
      match braceUnit (c :: cs) with
      | some (u, rest) =>
          cur.reverse :: (u.drop 1).dropLast :: innerTokensGo fuel [] rest
      | none => innerTokensGo fuel (c :: cur) cs

def innerTokens (s : Str) : List Str :=
  innerTokensGo (s.length + 1) [] s

/-- The Cartesian product `itertools.product(*parts)` with parts joined
in position order: the leftmost part varies slowest. -/
def listProd : List (List Str) → List Str
  | [] => [[]]
  | p :: ps => p.flatMap (fun x => (listProd ps).map (fun y => x ++ y))

/-- The inner `expand` closure of `_expand_envstr` (config.py:863). -/
def expandOne (env : Str) : List Str :=
  listProd ((innerTokens env).map (splitOn ','))

/-- `_expand_envstr` (config.py:857). -/
def expand_envstr (envstr : Str) : List Str :=
  (joinRuns (envTokens envstr)).flatMap expandOne

/-- Test for a brace group `\{[^}]+\}` occurring anywhere in the string;
structured so that group-freeness is inherited by suffixes. -/
def groupFree : Str → Bool
  | [] => true
  | c :: cs => (c != '{' || (braceUnit (c :: cs)).isNone) && groupFree cs

/-- Comma tokens only: what `envTokensGo` degenerates to when the input
contains no brace group (pieces interleaved with `none` separators). -/
def commaTokens (cur : Str) : Str → List (Option Str)
  | [] => [some cur.reverse]
  | c :: cs =>
      if c = ',' then some cur.reverse :: none :: commaTokens [] cs
      else commaTokens (c :: cur) cs

/-- Interleave `none` between consecutive elements. -/
def interNone : List (Option Str) → List (Option Str)
  | [] => []
  | [x] => [x]
  | x :: y :: rest => x :: none :: interNone (y :: rest)

/-- Append `a` to the head element of a list of strings. -/
def consHead (a : Str) : List Str → List Str
  | [] => [a]
  | p :: ps => (a ++ p) :: ps

/-!
## Factor-conditional line filter (`SectionReader._apply_factors`, config.py:1002)
-/

/-- Characters of the class `[\w{}\.,-]` in the factor-prefix pattern. -/
def factorChar (c : Char) : Bool :=
  c.isAlpha || c.isDigit || c = '_' || c = '{' || c = '}' ||
    c = '.' || c = ',' || c = '-'

/-- Match `^([\w{}\.,-]+)\:\s+(.+)` against a (newline-free) line,
returning the factor expression and the line content.  The greedy `\s+`
backtracks one character to feed `(.+)` when the line ends in
whitespace, exactly as `re.search` does. -/
def factorSplitLine (line : Str) : Option (Str × Str) :=
  let r := takeRun factorChar line
  if r.1.isEmpty then none
  else match r.2 with
    | ':' :: rest =>
        let w := takeRun pyIsSpace rest
        if w.1.isEmpty then none
        else if !w.2.isEmpty then some (r.1, w.2)
        else if 2 ≤ w.1.length then some (r.1, [w.1.getLastD ' '])
        else none
    | _ => none

/-- `_split_factor_expr` (config.py:852): expand the expression and split
each alternative on `-` into its factor tokens. -/
def split_factor_expr (expr : Str) : List (List Str) :=
  (expand_envstr expr).map (splitOn '-')

/-- The test `any(fs <= self.factors for fs in _split_factor_expr(expr))`
of `_apply_factors`; set containment is membership of every token. -/
def factorMatches (factors : List Str) (expr : Str) : Bool :=
  (split_factor_expr expr).any (fun fs => fs.all (fun f => factors.contains f))

/-- The inner `factor_line` closure of `_apply_factors` (config.py:1003):
keep unconditional lines, replace a matching conditional line by its
content, drop (return `None` for) a non-matching one. -/
def factor_line (factors : List Str) (line : Str) : Option Str :=
  match factorSplitLine line with
  | none => some line
  | some (expr, content) =>
      if factorMatches factors expr then some content else none

/-- Python `filter(None, ...)` over the mapped lines: drops both `None`
results and empty strings (both are falsy). -/
def truthyFilter : List (Option Str) → List Str
  | [] => []
  | none :: rest => truthyFilter rest
  | some l :: rest =>
      if l.isEmpty then truthyFilter rest else l :: truthyFilter rest

/-- `SectionReader._apply_factors` (config.py:1002): strip the value,
split into lines, filter/rewrite each line, keep truthy results, rejoin
with newlines. -/
def apply_factors (factors : List Str) (s : Str) : Str :=
  joinWith '\n'
    (truthyFilter ((pySplitlines (pyStrip s)).map (factor_line factors)))

/-- Modelled from the amended claim wording for the factor filter: after
the raw value is stripped, each remaining line is kept verbatim when it
is non-empty and carries no factor prefix, rewritten to its content when
its factor expression matches, and dropped when the line is empty or its
expression does not match; kept lines are rejoined with newlines. -/
def applyFactorsAmended (factors : List Str) (s : Str) : Str :=
  joinWith '\n'
    ((pySplitlines (pyStrip s)).filterMap (fun line =>
      match factorSplitLine line with
      | none => if line.isEmpty then none else some line
      | some (expr, content) =>
          if factorMatches factors expr then some content else none))

/-!
## The substitution placeholder pattern (`Replacer.RE_ITEM_REF`, config.py:1027)

The pattern is

  (?<!\\)[{] (?:(?P<sub_type>[^[:{}]+):)?
  (?P<substitution_value>(?:\[[^,{}]*\])?[^:,{}]*)
  (?::(?P<default_value>[^{}]*))? [}]

Each starred/plus-ed subpattern ranges over a character class, so greedy
matching takes the maximal run; backtracking inside a run is useless
except for the `\]` after `[^,{}]*` (the class contains `]`), where the
engine retries every `]` inside the maximal run from the rightmost one
leftwards, and for the two optional groups, which are dropped wholesale
on failure.  The scanners below implement exactly that search order.
-/

/-- Class `[^[:{}]` of the `sub_type` group. -/
def noTypeChar (c : Char) : Bool :=
  !(c = '[') && !(c = ':') && !(c = '{') && !(c = '}')

/-- Class `[^,{}]` inside the optional `\[...\]` of the value group. -/
def noBrkChar (c : Char) : Bool :=
  !(c = ',') && !(c = '{') && !(c = '}')

/-- Class `[^:,{}]` of the tail of the value group. -/
def noValChar (c : Char) : Bool :=
  !(c = ':') && !(c = ',') && !(c = '{') && !(c = '}')

/-- Class `[^{}]` of the default group. -/
def noDefChar (c : Char) : Bool :=
  !(c = '{') && !(c = '}')

/-- The three capture groups of one `RE_ITEM_REF` match
(`match.groupdict()` in `_replace_match`). -/
structure Groups where
  subType : Option Str
  subValue : Str
  dflt : Option Str
deriving DecidableEq

/-- Match `(?:(?P<sub_type>[^[:{}]+):)` after the opening brace.  The
class excludes `:`, so only the maximal run can be followed by `:`. -/
def matchSubType (cs : Str) : Option (Str × Str) :=
  let r := takeRun noTypeChar cs
  match r.1, r.2 with
  | [], _ => none
  | t, ':' :: rest => some (t, rest)
  | _, _ => none

/-- Match `(?::(?P<default_value>[^{}]*))?[}]`: either a default part
followed by the closing brace, or the closing brace directly.  The
class excludes `}`, so no shorter run can expose a brace. -/
def matchValueTail (cs : Str) : Option (Option Str × Str) :=
  match cs with
  | ':' :: cs₂ =>
      let r := takeRun noDefChar cs₂
      match r.2 with
      | '}' :: rest => some (some r.1, rest)
      | _ => none
  | '}' :: rest => some (none, rest)
  | _ => none

/-- All decompositions `run = a ++ ']' :: b`, leftmost split first. -/
def bracketSplitsL : Str → List (Str × Str)
  | [] => []
  | c :: cs =>
      (if c = ']' then [(([] : Str), cs)] else []) ++
        (bracketSplitsL cs).map (fun pr => (c :: pr.1, pr.2))

/-- Match the `[^:,{}]*` tail of the value group (prefixed by the
already-consumed part `pre`) and then the default/closing part. -/
def matchValCore (pre : Str) (cs : Str) : Option (Str × Option Str × Str) :=
  let r := takeRun noValChar cs
  match matchValueTail r.2 with
  | some (d, rest) => some (pre ++ r.1, d, rest)
  | none => none

/-- Try the bracket decompositions in backtracking order. -/
def tryBrk (after : Str) : List (Str × Str) → Option (Str × Option Str × Str)
  | [] => none
  | (a, b) :: more =>
      match matchValCore ('[' :: (a ++ [']'])) (b ++ after) with
      | some res => some res
      | none => tryBrk after more

/-- Match `(?P<substitution_value>(?:\[[^,{}]*\])?[^:,{}]*)` followed by
the default/closing part; the optional bracket part backtracks over
every `]` in its maximal run (rightmost first) and is then dropped. -/
def matchValue (cs : Str) : Option (Str × Option Str × Str) :=
  match cs with
  | '[' :: cs₂ =>
      let r := takeRun noBrkChar cs₂
      match tryBrk r.2 (bracketSplitsL r.1).reverse with
      | some res => some res
      | none => matchValCore [] cs
  | _ => matchValCore [] cs

/-- Match the full `RE_ITEM_REF` pattern at the head of `cs` (the
lookbehind is checked by the caller).  Returns the groups and the rest
of the input after the match. -/
def matchItemRef (cs : Str) : Option (Groups × Str) :=
  match cs with
  | '{' :: cs₂ =>
      match matchSubType cs₂ with
      | some (t, rest) =>
          match matchValue rest with
          | some (v, d, rest₂) => some (⟨some t, v, d⟩, rest₂)
          | none =>
              match matchValue cs₂ with
              | some (v, d, rest₂) => some (⟨none, v, d⟩, rest₂)
              | none => none
      | none =>
          match matchValue cs₂ with
          | some (v, d, rest₂) => some (⟨none, v, d⟩, rest₂)
          | none => none
  | _ => none

/-!
## The substitution resolver
(`SectionReader._replace` / `Replacer` / `SetenvDict`, config.py)

Mutable reader state is threaded explicitly; exceptions are `Except`
errors, with the `try/finally` pops of `_replace` and `SetenvDict.get`
performed on both the normal and the error path, exactly as in Python.
Recursion (`_replace` → `_replace_match` → `_substitute_from_other_section`
→ `_replace`, and `_replace_env` → `SetenvDict.get` → `_replace`) is
fuel-indexed; `RErr.fuel` marks fuel exhaustion and never occurs for
adequate fuel.
-/

/-- Errors raised during resolution: `tox.exception.ConfigError`, the
`ValueError` of the cycle guard, fuel exhaustion, and an (unreachable)
internal tag for call/return mismatches of the fuel encoding. -/
inductive RErr where
  | config (msg : Str) : RErr
  | value (msg : Str) : RErr
  | fuel : RErr
  | internal : RErr
deriving DecidableEq

/-- The fixed data of a `SectionReader` plus its process environment:
ini sections (`_cfg`), the local namespace (`_subs`, values taken as
strings), `os.environ`, `os.pathsep`, the section name, positional
arguments, and the definitions of the active `SetenvDict` if any. -/
structure Ctx where
  cfg : List (Str × List (Str × Str))
  subs : List (Str × Str)
  environ : Str → Option Str
  pathsep : Str
  sectionName : Str
  posargs : List Str
  setenvDefs : Option (List (Str × Str))

/-- The mutable reader state: `_subststack`, and the `resolved` cache
and `_lookupstack` of the active `SetenvDict`. -/
structure RState where
  subststack : List (Str × Option Str)
  resolved : List (Str × Str)
  lookupstack : List Str
deriving DecidableEq

/-- The empty initial state. -/
def st0 : RState := ⟨[], [], []⟩

/-- Calls of the mutually recursive pair `_replace` / `SetenvDict.get`. -/
inductive RCall where
  | rep (value : Str) (name : Option Str) (sect : Option Str)
      (crossonly : Bool) : RCall
  | envget (name : Str) (dflt : Option Str) : RCall

/-- Returns of the two call kinds. -/
inductive RRet where
  | str (s : Str) : RRet
  | ostr (o : Option Str) : RRet
deriving DecidableEq

/-- Section lookup in the ini config (`section in cfg`, `cfg[section]`). -/
def lookupSec (sec : Str) : List (Str × List (Str × Str)) → Option (List (Str × Str))
  | [] => none
  | (k, v) :: rest => if k = sec then some v else lookupSec sec rest

/-- Split at the first `]` (Python `key.find("]")`). -/
def splitAtRBrack : Str → Option (Str × Str)
  | [] => none
  | c :: cs =>
      if c = ']' then some ([], cs)
      else match splitAtRBrack cs with
        | some (a, b) => some (c :: a, b)
        | none => none

/-- Project a `rep` return to its string. -/
def retStr : RState × Except RErr RRet → RState × Except RErr Str
  | (st, .ok (.str s)) => (st, .ok s)
  | (st, .ok (.ostr _)) => (st, .error .internal)
  | (st, .error e) => (st, .error e)

/-- The scan of `RE_ITEM_REF.sub(self._replace_match, x)`: find leftmost
matches (skipping an opening brace preceded by a backslash, the
lookbehind), splice in the replacement, and continue after the match.
`prev` is the previous character of the original string. -/
def scanSub (repl : Groups → Str → RState → RState × Except RErr Str) :
    Nat → Option Char → Str → RState → RState × Except RErr Str
  | _, _, [], st => (st, .ok [])
  | 0, _, _ :: _, st => (st, .error .fuel)
  | f + 1, prev, c :: cs, st =>
      if c = '{' && !(prev = some '\\') then
        match matchItemRef (c :: cs) with
        | some (g, rest) =>
            let matched := (c :: cs).take ((c :: cs).length - rest.length)
            match repl g matched st with
            | (st₁, .ok rs) =>
                match scanSub repl f (some '}') rest st₁ with
                | (st₂, .ok tail) => (st₂, .ok (rs ++ tail))
                | (st₂, .error e) => (st₂, .error e)
            | (st₁, .error e) => (st₁, .error e)
        | none =>
            match scanSub repl f (some c) cs st with
            | (st₁, .ok tail) => (st₁, .ok (c :: tail))
            | (st₁, .error e) => (st₁, .error e)
      else
        match scanSub repl f (some c) cs st with
        | (st₁, .ok tail) => (st₁, .ok (c :: tail))
        | (st₁, .error e) => (st₁, .error e)

/-- `SectionReader.get_environ_value` (config.py:913): the process
environment when no setenv mapping is active, else `SetenvDict.get`
(through the fuelled recursion `recur`). -/
def getEnvironValueF (recur : RCall → RState → RState × Except RErr RRet)
    (ctx : Ctx) (name : Str) (st : RState) :
    RState × Except RErr (Option Str) :=
  match ctx.setenvDefs with
  | none => (st, .ok (ctx.environ name))
  | some _ =>
      match recur (.envget name none) st with
      | (st₁, .ok (.ostr o)) => (st₁, .ok o)
      | (st₁, .ok (.str _)) => (st₁, .error .internal)
      | (st₁, .error e) => (st₁, .error e)

/-- `Replacer._replace_env` (config.py:1077). -/
def replaceEnvF (recur : RCall → RState → RState × Except RErr RRet)
    (ctx : Ctx) (g : Groups) (st : RState) :
    RState × Except RErr Str :=
  if g.subValue.isEmpty then
    (st, .error (.config ("env: requires an environment variable name".data)))
  else
    match getEnvironValueF recur ctx g.subValue st with
    | (st₁, .ok (some v)) => (st₁, .ok v)
    | (st₁, .ok none) =>
        match g.dflt with
        | some d => (st₁, .ok d)
        | none =>
            (st₁, .error (.config
              ("substitution env: unknown environment variable ".data
                ++ g.subValue)))
    | (st₁, .error e) => (st₁, .error e)

/-- `Replacer._substitute_from_other_section` (config.py:1095): parse
`[section]item`, look both up in the ini config, fail on a repeated
`(section, item)` frame in `_subststack` (the cycle guard), else resolve
the raw value recursively with the other section as context. -/
def substituteOtherF (recur : RCall → RState → RState × Except RErr RRet)
    (ctx : Ctx) (crossonly : Bool) (key : Str) (st : RState) :
    RState × Except RErr Str :=
  match key with
  | '[' :: rest =>
      match splitAtRBrack rest with
      | some (sec, item) =>
          match lookupSec sec ctx.cfg with
          | some secmap =>
              match lookupA item secmap with
              | some x =>
                  if (sec, some item) ∈ st.subststack then
                    (st, .error (.value ("already in: ".data ++ sec ++ item)))
                  else retStr (recur (.rep x (some item) (some sec) crossonly) st)
              | none =>
                  (st, .error (.config ("substitution key not found: ".data ++ key)))
          | none =>
              (st, .error (.config ("substitution key not found: ".data ++ key)))
      | none =>
          (st, .error (.config ("substitution key not found: ".data ++ key)))
  | _ => (st, .error (.config ("substitution key not found: ".data ++ key)))

/-- `Replacer._replace_substitution` (config.py:1111): the local
namespace first, else the cross-section form. -/
def replaceSubstitutionF (recur : RCall → RState → RState × Except RErr RRet)
    (ctx : Ctx) (crossonly : Bool) (g : Groups) (st : RState) :
    RState × Except RErr Str :=
  match lookupA g.subValue ctx.subs with
  | some val => (st, .ok val)
  | none => substituteOtherF recur ctx crossonly g.subValue st

/-- `Replacer._replace_match` (config.py:1044): cross-only mode keeps
everything but cross-section references verbatim; otherwise the
all-empty match is the path separator, `opts`/`packages` are kept
intact, `env:` goes to the environment, any other explicit kind fails,
and a bare value goes to the namespace lookup. -/
def replaceMatchF (recur : RCall → RState → RState × Except RErr RRet)
    (ctx : Ctx) (crossonly : Bool) (g : Groups) (matched : Str)
    (st : RState) : RState × Except RErr Str :=
  if crossonly then
    if g.subValue.head? = some '[' then
      substituteOtherF recur ctx crossonly g.subValue st
    else (st, .ok matched)
  else if !(g.subType.any (fun t => !t.isEmpty) || !g.subValue.isEmpty
      || g.dflt.any (fun d => !d.isEmpty)) then
    (st, .ok ctx.pathsep)
  else if g.subValue = "opts".data || g.subValue = "packages".data then
    (st, .ok ('{' :: (g.subValue ++ ['}'])))
  else
    match g.subType with
    | some t =>
        if t = "env".data then replaceEnvF recur ctx g st
        else (st, .error (.config ("No support for the substitution type: ".data ++ t)))
    | none => replaceSubstitutionF recur ctx crossonly g st

/-- The fuelled mutual recursion of `SectionReader._replace`
(config.py:1015) and `SetenvDict.get` (config.py:277).  `_replace`
returns values without a brace unchanged, else pushes its
`(section_name, name)` frame, runs the pattern scan, and pops the frame
whether the scan succeeded or raised; `get` consults the resolved
cache, then treats a name already on the lookup stack or absent from the
definitions as a plain process-environment lookup, else resolves the
definition with the name pushed on the lookup stack (popped on both
exits, the cache updated on success only). -/
def interp (ctx : Ctx) : Nat → RCall → RState → RState × Except RErr RRet
  | 0, _, st => (st, .error .fuel)
  | n + 1, .rep value name sect crossonly, st =>
      if value.contains '{' then
        let frame := ((sect.getD ctx.sectionName), name)
        let st₁ := { st with subststack := st.subststack ++ [frame] }
        match scanSub (replaceMatchF (interp ctx n) ctx crossonly)
            (value.length + 1) none value st₁ with
        | (st₂, .ok out) =>
            ({ st₂ with subststack := st₂.subststack.dropLast },
              .ok (.str out))
        | (st₂, .error e) =>
            ({ st₂ with subststack := st₂.subststack.dropLast }, .error e)
      else (st, .ok (.str value))
  | n + 1, .envget name dflt, st =>
      match lookupA name st.resolved with
      | some v => (st, .ok (.ostr (some v)))
      | none =>
          if name ∈ st.lookupstack then
            (st, .ok (.ostr (match ctx.environ name with
                             | some v => some v
                             | none => dflt)))
          else
            match lookupA name (ctx.setenvDefs.getD []) with
            | none =>
                (st, .ok (.ostr (match ctx.environ name with
                                 | some v => some v
                                 | none => dflt)))
            | some val =>
                let st₁ := { st with lookupstack := st.lookupstack ++ [name] }
                match interp ctx n (.rep val none none false) st₁ with
                | (st₂, .ok (.str res)) =>
                    ({ st₂ with
                        lookupstack := st₂.lookupstack.dropLast,
                        resolved := st₂.resolved ++ [(name, res)] },
                      .ok (.ostr (some res)))
                | (st₂, .ok (.ostr _)) =>
                    ({ st₂ with lookupstack := st₂.lookupstack.dropLast },
                      .error .internal)
                | (st₂, .error e) =>
                    ({ st₂ with lookupstack := st₂.lookupstack.dropLast },
                      .error e)

/-- `SectionReader._replace` with explicit fuel. -/
def reader_replace (ctx : Ctx) (fuel : Nat) (value : Str)
    (name : Option Str) (sect : Option Str) (crossonly : Bool)
    (st : RState) : RState × Except RErr Str :=
  retStr (interp ctx fuel (.rep value name sect crossonly) st)

/-- `SetenvDict.get` with explicit fuel. -/
def setenv_get (ctx : Ctx) (fuel : Nat) (name : Str) (dflt : Option Str)
    (st : RState) : RState × Except RErr (Option Str) :=
  match interp ctx fuel (.envget name dflt) st with
  | (st₁, .ok (.ostr o)) => (st₁, .ok o)
  | (st₁, .ok (.str _)) => (st₁, .error .internal)
  | (st₁, .error e) => (st₁, .error e)

/-- The raw value `{[S]K}` of a cross-section placeholder. -/
def refValue (S K : Str) : Str :=
  '{' :: '[' :: (S ++ ']' :: (K ++ ['}']))

/-- The raw value `{env:N}` of an environment placeholder. -/
def envRefValue (N : Str) : Str :=
  '{' :: 'e' :: 'n' :: 'v' :: ':' :: (N ++ ['}'])

/-- A resolution outcome is an error (an exception was raised). -/
def isErr {α : Type} : Except RErr α → Bool
  | .error _ => true
  | .ok _ => false

/-!
## Command tokenizer and argv-list builder
(`CommandParser`, `_ArgvlistReader`, config.py:1122-1251, plus the
`subprocess.list2cmdline` and posix `shlex` collaborators it calls with
`whitespace_split=True` and `escape` disabled)
-/

/-- Python `str.replace(ab, c)` for a two-character pattern, scanning
left to right without overlap. -/
def replacePair (a b t : Char) : Str → Str
  | [] => []
  | [c] => [c]
  | c₁ :: c₂ :: cs =>
      if c₁ = a && c₂ = b then t :: replacePair a b t cs
      else c₁ :: replacePair a b t (c₂ :: cs)

/-- The `word_has_ended` predicate of `CommandParser.words`
(config.py:1206). -/
def wordHasEnded (cur : Char) (word : Str) (depth : Int) : Bool :=
  (pyIsSpace cur && !word.isEmpty && !pyIsSpace (word.getLastD ' ')) ||
    (cur = '{' && depth = 0 && !(word.getLastD ' ' = '\\')) ||
    (depth = 0 && !word.isEmpty && word.getLastD ' ' = '}') ||
    (!pyIsSpace cur && !word.isEmpty && (pyStrip word).isEmpty)

/-- `yield_this_word`: an empty word is not yielded. -/
def yieldThisWord (word : Str) (acc : List Str) : List Str :=
  if word.isEmpty then acc else acc ++ [word]

/-- The character loop of `CommandParser.words` (config.py:1233):
whitespace only ends a word at depth zero; an opening brace at depth
zero forces a boundary (unless escaped) and pushes; a closing brace
always accumulates and pops; any other character ends a pending
whitespace run. -/
def cmdWordsGo : Str → Str → Int → List Str → List Str
  | [], word, _, acc =>
      if (pyStrip word).isEmpty then acc else acc ++ [word]
  | c :: cs, word, depth, acc =>
      if pyIsSpace c then
        if depth = 0 then
          if wordHasEnded c word depth then
            cmdWordsGo cs [c] depth (yieldThisWord word acc)
          else cmdWordsGo cs (word ++ [c]) depth acc
        else cmdWordsGo cs (word ++ [c]) depth acc
      else if c = '{' then
        if wordHasEnded c word depth then
          cmdWordsGo cs [c] (depth + 1) (yieldThisWord word acc)
        else cmdWordsGo cs (word ++ [c]) (depth + 1) acc
      else if c = '}' then
        cmdWordsGo cs (word ++ [c]) (depth - 1) acc
      else
        if wordHasEnded c word depth then
          cmdWordsGo cs [c] depth (yieldThisWord word acc)
        else cmdWordsGo cs (word ++ [c]) depth acc

/-- `CommandParser(command).words()`. -/
def cmdWords (command : Str) : List Str :=
  cmdWordsGo command [] 0 []

/-- `subprocess.list2cmdline` quoting test. -/
def needQuote (arg : Str) : Bool :=
  arg.contains ' ' || arg.contains '\t' || arg.isEmpty

/-- The per-character loop of `list2cmdline`; returns the processed
output and the still-buffered trailing backslashes. -/
def l2cGo (acc bsbuf : Str) : Str → Str × Str
  | [] => (acc, bsbuf)
  | c :: cs =>
      if c = '\\' then l2cGo acc (bsbuf ++ [c]) cs
      else if c = '"' then
        l2cGo (acc ++ bsbuf ++ bsbuf ++ ['\\', '"']) [] cs
      else l2cGo (acc ++ bsbuf ++ [c]) [] cs

/-- One argument of `subprocess.list2cmdline`. -/
def list2cmdlineArg (arg : Str) : Str :=
  let nq := needQuote arg
  let r := l2cGo [] [] arg
  (if nq then ['"'] else []) ++ r.1 ++ r.2 ++
    (if nq then r.2 ++ ['"'] else [])

/-- `subprocess.list2cmdline`: arguments joined with single spaces. -/
def list2cmdline : List Str → Str
  | [] => []
  | [a] => list2cmdlineArg a
  | a :: rest => list2cmdlineArg a ++ ' ' :: list2cmdline rest

/-- `shlex` whitespace (the default `' \t\r\n'`). -/
def shlexWs (c : Char) : Bool :=
  c = ' ' || c = '\t' || c = '\x0d' || c = '\n'

/-- Consume a comment: `instream.readline()` reads through the next
newline. -/
def dropLine : Str → Str
  | [] => []
  | c :: cs => if c = '\n' then cs else dropLine cs

/-- The state of the `shlex.read_token` machine for our configuration
(posix, `whitespace_split=True`, quotes `'"`, commenters `#`, no escape
characters): between tokens, inside a word, or inside a quote. -/
inductive ShMode where
  | start : ShMode
  | word (token : Str) (quoted : Bool) : ShMode
  | quo (q : Char) (token : Str) : ShMode

/-- The `shlex` token loop.  A word is emitted at whitespace, a
commenter, or end of input when its token is non-empty or was quoted;
quotes accumulate verbatim (no escape processing) and an unterminated
quote raises the `No closing quotation` error. -/
def shlexGo : Nat → ShMode → Str → List Str → Except RErr (List Str)
  | _, .start, [], acc => .ok acc
  | _, .word token quoted, [], acc =>
      if !token.isEmpty || quoted then .ok (acc ++ [token]) else .ok acc
  | _, .quo _ _, [], _ =>
      .error (.value ("No closing quotation".data))
  | 0, _, _ :: _, _ => .error .fuel
  | f + 1, .start, c :: cs, acc =>
      if shlexWs c then shlexGo f .start cs acc
      else if c = '#' then shlexGo f .start (dropLine cs) acc
      else if c = '\'' || c = '"' then shlexGo f (.quo c []) cs acc
      else shlexGo f (.word [c] false) cs acc
  | f + 1, .word token quoted, c :: cs, acc =>
      if shlexWs c then
        if !token.isEmpty || quoted then
          shlexGo f .start cs (acc ++ [token])
        else shlexGo f .start cs acc
      else if c = '#' then
        if !token.isEmpty || quoted then
          shlexGo f .start (dropLine cs) (acc ++ [token])
        else shlexGo f .start (dropLine cs) acc
      else if c = '\'' || c = '"' then shlexGo f (.quo c token) cs acc
      else shlexGo f (.word (token ++ [c]) quoted) cs acc
  | f + 1, .quo q token, c :: cs, acc =>
      if c = q then shlexGo f (.word token true) cs acc
      else shlexGo f (.quo q (token ++ [c])) cs acc

/-- `list(shlex.shlex(s, posix=True))` with `whitespace_split=True` and
`escape` disabled (config.py:1185). -/
def shlexSplit (s : Str) : Except RErr (List Str) :=
  shlexGo (s.length + 1) .start s []

/-- A command string that yields no shell token: only whitespace and
comments (same fuel discipline as `shlexGo`). -/
def blankCmd : Nat → Str → Bool
  | _, [] => true
  | 0, _ :: _ => true
  | f + 1, c :: cs =>
      if shlexWs c then blankCmd f cs
      else if c = '#' then blankCmd f (dropLine cs)
      else false

/-- The class `[^{}\s]` of the section part of `is_section_substitution`
(config.py:897). -/
def secSubChar (c : Char) : Bool :=
  !(c = '{') && !(c = '}') && !pyIsSpace c

/-- Find a `}` preceded only by non-whitespace (the `\S+?}` tail of the
`is_section_substitution` pattern, one character already consumed). -/
def seekCloseGo : Str → Bool
  | [] => false
  | c :: cs => c = '}' || (!pyIsSpace c && seekCloseGo cs)

/-- `is_section_substitution` (config.py:897): does
`{\[[^{}\s]+\]\S+?}` match at the start of the string?  The greedy
`[^{}\s]+` backtracks over every `]` inside its maximal run. -/
def is_section_substitution (cs : Str) : Bool :=
  match cs with
  | '{' :: '[' :: rest =>
      let r := takeRun secSubChar rest
      (bracketSplitsL r.1).any (fun pr =>
        !pr.1.isEmpty &&
          (match pr.2 ++ r.2 with
           | c :: cs₂ => !pyIsSpace c && seekCloseGo cs₂
           | [] => false))
  | _ => false

/-- `list2cmdline([x for x in posargs if x])` (config.py:1159). -/
def posargsString (pa : List Str) : Str :=
  list2cmdline (pa.filter (fun x => !x.isEmpty))

/-- The substitution applied to one non-`posargs` word of a command
(config.py:1174): resolve twice through the reader, then unescape
literal braces (`\{`, `\}`), in that order. -/
def word_sub (ctx : Ctx) (fuel : Nat) (st : RState) (word : Str) :
    RState × Except RErr Str :=
  match reader_replace ctx fuel word none none false st with
  | (st₁, .ok w₁) =>
      match reader_replace ctx fuel w₁ none none false st₁ with
      | (st₂, .ok w₂) =>
          (st₂, .ok (replacePair '\\' '}' '}'
            (replacePair '\\' '{' '{' w₂)))
      | (st₂, .error e) => (st₂, .error e)
  | (st₁, .error e) => (st₁, .error e)

/-- The word loop of `_ArgvlistReader.processcommand` (config.py:1164):
`\x7bposargs\x7d` and `[]` splice the quoted positional arguments; a
`\x7bposargs:...\x7d` word does the same when positional arguments exist and
otherwise falls through to the substitution of its default text; every
other word is substituted. -/
def buildCommand (ctx : Ctx) (fuel : Nat) :
    List Str → Str → RState → RState × Except RErr Str
  | [], acc, st => (st, .ok acc)
  | w :: ws, acc, st =>
      if w = "{posargs}".data || w = "[]".data then
        buildCommand ctx fuel ws (acc ++ posargsString ctx.posargs) st
      else if ("\x7bposargs:".data).isPrefixOf w && w.getLastD ' ' = '}' then
        if !ctx.posargs.isEmpty then
          buildCommand ctx fuel ws (acc ++ posargsString ctx.posargs) st
        else
          match word_sub ctx fuel st ((w.drop 9).dropLast) with
          | (st₁, .ok nw) => buildCommand ctx fuel ws (acc ++ nw) st₁
          | (st₁, .error e) => (st₁, .error e)
      else
        match word_sub ctx fuel st w with
        | (st₁, .ok nw) => buildCommand ctx fuel ws (acc ++ nw) st₁
        | (st₁, .error e) => (st₁, .error e)

/-- `_ArgvlistReader.processcommand` (config.py:1157): build the
substituted command string from the brace-aware words, then split it
into an argv with the posix shell lexer. -/
def processcommand (ctx : Ctx) (fuel : Nat) (st : RState) (command : Str) :
    RState × Except RErr (List Str) :=
  match buildCommand ctx fuel (cmdWords command) [] st with
  | (st₁, .ok newcmd) => (st₁, shlexSplit newcmd)
  | (st₁, .error e) => (st₁, .error e)

/-- The line loop of `_ArgvlistReader.getargvlist` (config.py:1134):
blank lines are skipped, a trailing backslash joins lines with a space,
a completed command that is syntactically a cross-section reference is
resolved cross-only and recursively re-split (`splice`), every other
command is processed into one argv; a pending continuation at the end
of the block is a configuration error. -/
def gavLines (replaceC : Str → RState → RState × Except RErr Str)
    (splice : Str → RState → RState × Except RErr (List (List Str)))
    (pc : Str → RState → RState × Except RErr (List Str)) :
    List Str → Str → RState → RState × Except RErr (List (List Str))
  | [], cur, st =>
      if cur.isEmpty then (st, .ok [])
      else (st, .error (.config
        ("line-continuation ends nowhere while resolving".data)))
  | line :: rest, cur, st =>
      let l := pyRstrip line
      if l.isEmpty then gavLines replaceC splice pc rest cur st
      else if l.getLastD ' ' = '\\' then
        gavLines replaceC splice pc rest (cur ++ ' ' :: l.dropLast) st
      else
        let cur₂ := cur ++ l
        if is_section_substitution cur₂ then
          match replaceC cur₂ st with
          | (st₁, .ok replaced) =>
              match splice replaced st₁ with
              | (st₂, .ok cmds₁) =>
                  match gavLines replaceC splice pc rest [] st₂ with
                  | (st₃, .ok cmds₂) => (st₃, .ok (cmds₁ ++ cmds₂))
                  | (st₃, .error e) => (st₃, .error e)
              | (st₂, .error e) => (st₂, .error e)
          | (st₁, .error e) => (st₁, .error e)
        else
          match pc cur₂ st with
          | (st₁, .ok argv) =>
              match gavLines replaceC splice pc rest [] st₁ with
              | (st₂, .ok cmds₂) => (st₂, .ok (argv :: cmds₂))
              | (st₂, .error e) => (st₂, .error e)
          | (st₁, .error e) => (st₁, .error e)

/-- `_ArgvlistReader.getargvlist` (config.py:1122), fuelled on the
cross-section splicing recursion. -/
def getargvlist (ctx : Ctx) : Nat → Str → RState → RState × Except RErr (List (List Str))
  | 0, _, st => (st, .error .fuel)
  | n + 1, value, st =>
      gavLines (fun s st₁ => reader_replace ctx (n + 1) s none none true st₁)
        (getargvlist ctx n)
        (fun s st₁ => processcommand ctx (n + 1) st₁ s)
        (pySplitlines value) [] st

/-- Characters allowed in an ordinary section or key name: everything
the placeholder grammar does not give a meaning to. -/
def plainNameChar (c : Char) : Bool :=
  !(c = ':') && !(c = ',') && !(c = '{') && !(c = '}') &&
    !(c = '[') && !(c = ']') && !(c = '\\')

/-- Instrumented variant of `processcommand` with identical control
flow: an error-free result additionally records the substituted command
string that was handed to the shell lexer.  `processcommand` is its
projection (`ToxClaims.processcommand_eq_projT`). -/
def processcommandT (ctx : Ctx) (fuel : Nat) (st : RState) (command : Str) :
    RState × Except RErr (Str × List Str) :=
  match buildCommand ctx fuel (cmdWords command) [] st with
  | (st₁, .ok newcmd) =>
      match shlexSplit newcmd with
      | .ok argv => (st₁, .ok (newcmd, argv))
      | .error e => (st₁, .error e)
  | (st₁, .error e) => (st₁, .error e)

/-- Forget the recorded command string of an instrumented
`processcommand` result. -/
def projPairR : RState × Except RErr (Str × List Str) →
    RState × Except RErr (List Str)
  | (st, .ok p) => (st, .ok p.2)
  | (st, .error e) => (st, .error e)

/-- Forget the recorded command strings of an instrumented argv-list
result. -/
def projListR : RState × Except RErr (List (Str × List Str)) →
    RState × Except RErr (List (List Str))
  | (st, .ok ps) => (st, .ok (ps.map (fun p => p.2)))
  | (st, .error e) => (st, .error e)

/-- Instrumented variant of the line loop `gavLines` with identical
control flow, carrying the recorded command strings along. -/
def gavLinesT (replaceC : Str → RState → RState × Except RErr Str)
    (spliceT : Str → RState → RState × Except RErr (List (Str × List Str)))
    (pcT : Str → RState → RState × Except RErr (Str × List Str)) :
    List Str → Str → RState → RState × Except RErr (List (Str × List Str))
  | [], cur, st =>
      if cur.isEmpty then (st, .ok [])
      else (st, .error (.config
        ("line-continuation ends nowhere while resolving".data)))
  | line :: rest, cur, st =>
      let l := pyRstrip line
      if l.isEmpty then gavLinesT replaceC spliceT pcT rest cur st
      else if l.getLastD ' ' = '\\' then
        gavLinesT replaceC spliceT pcT rest (cur ++ ' ' :: l.dropLast) st
      else
        let cur₂ := cur ++ l
        if is_section_substitution cur₂ then
          match replaceC cur₂ st with
          | (st₁, .ok replaced) =>
              match spliceT replaced st₁ with
              | (st₂, .ok ps₁) =>
                  match gavLinesT replaceC spliceT pcT rest [] st₂ with
                  | (st₃, .ok ps₂) => (st₃, .ok (ps₁ ++ ps₂))
                  | (st₃, .error e) => (st₃, .error e)
              | (st₂, .error e) => (st₂, .error e)
          | (st₁, .error e) => (st₁, .error e)
        else
          match pcT cur₂ st with
          | (st₁, .ok p) =>
              match gavLinesT replaceC spliceT pcT rest [] st₁ with
              | (st₂, .ok ps₂) => (st₂, .ok (p :: ps₂))
              | (st₂, .error e) => (st₂, .error e)
          | (st₁, .error e) => (st₁, .error e)

/-- Instrumented variant of `getargvlist` with identical control flow:
each output vector is paired with the substituted command string it was
split from.  `getargvlist` is its projection
(`ToxClaims.getargvlist_eq_projT`). -/
def getargvlistT (ctx : Ctx) :
    Nat → Str → RState → RState × Except RErr (List (Str × List Str))
  | 0, _, st => (st, .error .fuel)
  | n + 1, value, st =>
      gavLinesT (fun s st₁ => reader_replace ctx (n + 1) s none none true st₁)
        (getargvlistT ctx n)
        (fun s st₁ => processcommandT ctx (n + 1) st₁ s)
        (pySplitlines value) [] st

end Tox

namespace ToxClaims

open Tox

/-- Claim C2: expanding the environment-name expression
`py{27,36}-{dj16,dj17}` yields exactly
`[py27-dj16, py27-dj17, py36-dj16, py36-dj17]` in that order: the
Cartesian product over brace groups is taken left-to-right with the
leftmost group varying slowest. -/
theorem c2_expand_envstr_product :
    expand_envstr ("py{27,36}-{dj16,dj17}".data) =
      ["py27-dj16".data, "py27-dj17".data, "py36-dj16".data,
       "py36-dj17".data] := by
  decide

/-! ### Supporting lemmas for the factor filter -/

theorem factorSplitLine_content_ne_nil {line e c} :
    Tox.factorSplitLine line = some (e, c) → c.isEmpty = false := by
  unfold Tox.factorSplitLine
  intro h
  by_cases h₁ : (Tox.takeRun Tox.factorChar line).1.isEmpty
  · simp [h₁] at h
  · simp only [h₁, Bool.false_eq_true, if_false] at h
    rcases hr : (Tox.takeRun Tox.factorChar line).2 with _ | ⟨c₀, rest⟩
    all_goals simp only [hr] at h
    · simp at h
    · by_cases hc : c₀ = ':'
      · subst hc
        simp only at h
        by_cases h₂ : (Tox.takeRun Tox.pyIsSpace rest).1.isEmpty
        · simp [h₂] at h
        · simp only [h₂, Bool.false_eq_true, if_false] at h
          by_cases h₃ : (Tox.takeRun Tox.pyIsSpace rest).2.isEmpty
          · simp only [h₃, Bool.not_true, Bool.false_eq_true, if_false] at h
            by_cases h₄ : 2 ≤ (Tox.takeRun Tox.pyIsSpace rest).1.length
            · simp only [h₄, if_true, Option.some.injEq, Prod.mk.injEq] at h
              rw [← h.2]
              rfl
            · simp [h₄] at h
          · simp only [h₃, Bool.not_false, if_true, Option.some.injEq,
              Prod.mk.injEq] at h
            rw [← h.2]
            simpa using h₃
      · rcases c₀
        simp_all

theorem truthyFilter_map_eq_filterMap (f g : Tox.Str → Option Tox.Str)
    (h : ∀ l, (match f l with
               | none => none
               | some x => if x.isEmpty then none else some x) = g l) :
    ∀ ls : List Tox.Str,
      Tox.truthyFilter (ls.map f) = ls.filterMap g := by
  intro ls
  induction ls with
  | nil => rfl
  | cons l rest ih =>
      have hl := h l
      simp only [List.map_cons, List.filterMap_cons]
      rcases hf : f l with _ | x <;> rw [hf] at hl
      · rw [Tox.truthyFilter, ih, ← hl]
      · by_cases hx : x.isEmpty
        · simp only [hx, if_true] at hl
          simp only [Tox.truthyFilter, hx, if_true, ← hl, ih]
        · simp only [hx, Bool.false_eq_true, if_false] at hl
          simp only [Tox.truthyFilter, hx, Bool.false_eq_true, if_false,
            ← hl, ih]

/-- Claim C3 (amended): after the global strip, non-empty unconditional
lines are kept verbatim, empty lines are dropped, matching conditional
lines are replaced by their content, non-matching ones are dropped, and
the kept lines are rejoined with newlines in order. -/
theorem c3_apply_factors_amended (factors : List Tox.Str) (s : Tox.Str) :
    Tox.apply_factors factors s = Tox.applyFactorsAmended factors s := by
  unfold Tox.apply_factors Tox.applyFactorsAmended
  congr 1
  apply truthyFilter_map_eq_filterMap
  intro l
  unfold Tox.factor_line
  rcases hf : Tox.factorSplitLine l with _ | ⟨e, c⟩
  · by_cases hl : l.isEmpty <;> simp [hl]
  · have hc := factorSplitLine_content_ne_nil hf
    by_cases hm : Tox.factorMatches factors e <;> simp [hm, hc]

/-- Claim C3 (counterexample): a blank interior line carries no factor
prefix, yet it is dropped (the result is `a\nb`, not `a\n\nb`), so not
every prefix-free line is kept verbatim. -/
theorem c3_counterexample :
    Tox.apply_factors [] ("a\n\nb".data) = "a\nb".data ∧
      Tox.apply_factors [] ("a\n\nb".data) ≠ "a\n\nb".data := by
  constructor
  · decide
  · decide

/-! ### Supporting lemmas for environment-name expansion -/

theorem takeRun_eq (p : Char → Bool) :
    ∀ xs : Tox.Str, Tox.takeRun p xs = (xs.takeWhile p, xs.dropWhile p) := by
  intro xs
  induction xs with
  | nil => rfl
  | cons c cs ih =>
      by_cases hc : p c <;>
        simp [Tox.takeRun, List.takeWhile, List.dropWhile, hc, ih]

theorem dropWhile_head_false (p : Char → Bool) :
    ∀ (l : Tox.Str) c cs, l.dropWhile p = c :: cs → p c = false := by
  intro l
  induction l with
  | nil => intro c cs h; cases h
  | cons x xs ih =>
      intro c cs h
      by_cases hx : p x
      · rw [List.dropWhile_cons_of_pos hx] at h
        exact ih c cs h
      · rw [List.dropWhile_cons_of_neg hx] at h
        cases h
        simpa using hx

theorem groupFree_cons {c : Char} {cs : Tox.Str} :
    Tox.groupFree (c :: cs) = true → Tox.groupFree cs = true := by
  intro h
  rw [Tox.groupFree, Bool.and_eq_true] at h
  exact h.2

theorem braceUnit_none_iff (zs : Tox.Str) :
    Tox.braceUnit ('{' :: zs) = none ↔
      zs.takeWhile (fun c => !(c = '}')) = [] ∨ ∀ c ∈ zs, ¬(c = '}') := by
  rw [Tox.braceUnit]
  simp only [takeRun_eq]
  rcases htw : zs.takeWhile (fun c => !(c = '}')) with _ | ⟨x, xs⟩
  · simp
  · rcases hdw : zs.dropWhile (fun c => !(c = '}')) with _ | ⟨y, ys⟩
    · simp only []
      constructor
      · intro _
        right
        intro c hc
        have := (List.dropWhile_eq_nil_iff.mp hdw) c hc
        simpa using this
      · intro _; trivial
    · have hy : y = '}' := by
        have := dropWhile_head_false (fun c => !(c = '}')) zs y ys hdw
        simpa using this
      subst hy
      simp only []
      constructor
      · intro h; cases h
      · intro h
        rcases h with h | h
        · cases h
        · exfalso
          have hsub : List.Sublist (zs.dropWhile (fun c => !(c = '}'))) zs :=
            List.dropWhile_sublist _
          have hmem : '}' ∈ zs := by
            refine hsub.mem ?_
            rw [hdw]
            exact List.mem_cons_self _ _
          exact absurd rfl (h '}' hmem)

theorem braceUnit_none_of_not_lbrace {c : Char} (cs : Tox.Str)
    (hc : ¬(c = '{')) : Tox.braceUnit (c :: cs) = none := by
  rw [Tox.braceUnit.eq_def]
  split
  · rename_i heq
    cases heq
    exact absurd rfl hc
  · rfl

theorem braceUnit_none_of_groupFree {cs : Tox.Str}
    (h : Tox.groupFree cs = true) : Tox.braceUnit cs = none := by
  cases cs with
  | nil => rfl
  | cons c cs' =>
      by_cases hc : c = '{'
      · subst hc
        rw [Tox.groupFree, Bool.and_eq_true] at h
        have h₁ := h.1
        simp only [bne_self_eq_false, Bool.false_or,
          Option.isNone_iff_eq_none] at h₁
        exact h₁
      · exact braceUnit_none_of_not_lbrace cs' hc

theorem braceRun_none {cs : Tox.Str} (h : Tox.braceUnit cs = none) :
    Tox.braceRun cs = none := by
  rw [Tox.braceRun, h]

theorem envTokensGo_groupFree :
    ∀ cs : Tox.Str, Tox.groupFree cs = true →
      ∀ (fuel : Nat) (cur : Tox.Str), cs.length ≤ fuel →
        Tox.envTokensGo fuel cur cs = Tox.commaTokens cur cs := by
  intro cs
  induction cs with
  | nil =>
      intro _ fuel cur _
      cases fuel <;> rfl
  | cons c cs ih =>
      intro h fuel cur hlen
      cases fuel with
      | zero => exact absurd hlen (by simp)
      | succ f =>
          have hlen' : cs.length ≤ f := Nat.succ_le_succ_iff.mp hlen
          have h' : Tox.groupFree cs = true := groupFree_cons h
          by_cases hc : c = ','
          · subst hc
            rw [Tox.envTokensGo, if_pos rfl, Tox.commaTokens, if_pos rfl,
              ih h' f [] hlen']
          · have hbr : Tox.braceRun (c :: cs) = none :=
              braceRun_none (braceUnit_none_of_groupFree h)
            rw [Tox.envTokensGo, if_neg hc, hbr, ih h' f (c :: cur) hlen',
              Tox.commaTokens, if_neg hc]

theorem splitOn_eq_takeWhile_cons (sep : Char) :
    ∀ cs : Tox.Str, ∃ ts,
      Tox.splitOn sep cs = (cs.takeWhile (fun c => !(c = sep))) :: ts := by
  intro cs
  induction cs with
  | nil => exact ⟨[], rfl⟩
  | cons c cs ih =>
      rcases ih with ⟨ts, hts⟩
      by_cases hc : c = sep
      · refine ⟨Tox.splitOn sep cs, ?_⟩
        rw [Tox.splitOn, if_pos hc, List.takeWhile_cons_of_neg (by simp [hc])]
      · refine ⟨ts, ?_⟩
        rw [Tox.splitOn, if_neg hc, hts,
          List.takeWhile_cons_of_pos (by simp [hc])]

theorem splitOn_ne_nil (sep : Char) (cs : Tox.Str) :
    Tox.splitOn sep cs ≠ [] := by
  rcases splitOn_eq_takeWhile_cons sep cs with ⟨ts, hts⟩
  rw [hts]
  exact List.cons_ne_nil _ _

theorem mem_splitOn_not_sep (sep : Char) :
    ∀ (cs : Tox.Str) p, p ∈ Tox.splitOn sep cs → sep ∉ p := by
  intro cs
  induction cs with
  | nil =>
      intro p hp
      rw [Tox.splitOn] at hp
      simp at hp
      simp [hp]
  | cons c cs ih =>
      intro p hp
      by_cases hc : c = sep
      · subst hc
        rw [Tox.splitOn, if_pos rfl] at hp
        rcases List.mem_cons.mp hp with h | h
        · simp [h]
        · exact ih p h
      · rw [Tox.splitOn, if_neg hc] at hp
        rcases hsp : Tox.splitOn sep cs with _ | ⟨t, ts⟩
        · exact absurd hsp (splitOn_ne_nil sep cs)
        · rw [hsp] at hp
          rcases List.mem_cons.mp hp with h | h
          · subst h
            intro hmem
            rcases List.mem_cons.mp hmem with h | h
            · exact hc h.symm
            · exact ih t (hsp ▸ List.mem_cons_self _ _) h
          · exact ih p (hsp ▸ List.mem_cons.mpr (Or.inr h))

theorem takeWhile_eq_nil_cases {p : Char → Bool} {zs : Tox.Str}
    (h : zs.takeWhile p = []) :
    zs = [] ∨ ∃ z zs', zs = z :: zs' ∧ p z = false := by
  cases zs with
  | nil => exact Or.inl rfl
  | cons z zs' =>
      right
      refine ⟨z, zs', rfl, ?_⟩
      by_cases hz : p z
      · rw [List.takeWhile_cons_of_pos hz] at h
        cases h
      · simpa using hz

theorem braceUnit_none_takeWhile {zs : Tox.Str} {q : Char → Bool}
    (h : Tox.braceUnit ('{' :: zs) = none) (hq : q '}' = true) :
    Tox.braceUnit ('{' :: zs.takeWhile q) = none := by
  rcases (braceUnit_none_iff zs).mp h with h₁ | h₁
  · apply (braceUnit_none_iff _).mpr
    left
    rcases takeWhile_eq_nil_cases h₁ with h₂ | ⟨z, zs', h₂, h₃⟩
    · rw [h₂]
      rfl
    · have hz : z = '}' := by simpa using h₃
      subst hz
      rw [h₂]
      rw [List.takeWhile_cons_of_pos hq]
      rw [List.takeWhile_cons_of_neg (by simp)]
  · apply (braceUnit_none_iff _).mpr
    right
    intro c hc
    exact h₁ c ((List.takeWhile_sublist q).mem hc)

theorem groupFree_piece :
    ∀ cs : Tox.Str, Tox.groupFree cs = true →
      ∀ p ∈ Tox.splitOn ',' cs, Tox.groupFree p = true := by
  intro cs
  induction cs with
  | nil =>
      intro _ p hp
      rw [Tox.splitOn] at hp
      simp at hp
      rw [hp]
      rfl
  | cons c cs ih =>
      intro h p hp
      have h' : Tox.groupFree cs = true := groupFree_cons h
      by_cases hc : c = ','
      · subst hc
        rw [Tox.splitOn, if_pos rfl] at hp
        rcases List.mem_cons.mp hp with h₁ | h₁
        · rw [h₁]; rfl
        · exact ih h' p h₁
      · rw [Tox.splitOn, if_neg hc] at hp
        rcases hsp : Tox.splitOn ',' cs with _ | ⟨t, ts⟩
        · exact absurd hsp (splitOn_ne_nil ',' cs)
        · rw [hsp] at hp
          rcases List.mem_cons.mp hp with h₁ | h₁
          · subst h₁
            have hgt : Tox.groupFree t = true :=
              ih h' t (hsp ▸ List.mem_cons_self _ _)
            rw [Tox.groupFree, Bool.and_eq_true]
            refine ⟨?_, hgt⟩
            by_cases hcl : c = '{'
            · subst hcl
              simp only [bne_self_eq_false, Bool.false_or,
                Option.isNone_iff_eq_none]
              have hbu : Tox.braceUnit ('{' :: cs) = none := by
                rw [Tox.groupFree, Bool.and_eq_true] at h
                have h₁ := h.1
                simpa using h₁
              have ht : t = cs.takeWhile (fun d => !(d = ',')) := by
                rcases splitOn_eq_takeWhile_cons ',' cs with ⟨ts', hts'⟩
                rw [hsp] at hts'
                exact (List.cons.injEq _ _ _ _ ▸ hts').1
              rw [ht]
              exact braceUnit_none_takeWhile hbu (by simp)
            · have : (c != '{') = true := by simp [hcl]
              rw [this]
              rfl
          · exact ih h' p (hsp ▸ List.mem_cons.mpr (Or.inr h₁))

theorem groupFree_append_left :
    ∀ xs ys : Tox.Str, Tox.groupFree (xs ++ ys) = true →
      Tox.groupFree xs = true := by
  intro xs
  induction xs with
  | nil => intro ys _; rfl
  | cons c cs ih =>
      intro ys h
      rw [List.cons_append, Tox.groupFree, Bool.and_eq_true] at h
      rw [Tox.groupFree, Bool.and_eq_true]
      refine ⟨?_, ih ys h.2⟩
      have h₁ := h.1
      by_cases hc : c = '{'
      · subst hc
        simp only [bne_self_eq_false, Bool.false_or,
          Option.isNone_iff_eq_none] at h₁ ⊢
        rcases (braceUnit_none_iff _).mp h₁ with h₂ | h₂
        · apply (braceUnit_none_iff _).mpr
          left
          rcases takeWhile_eq_nil_cases h₂ with h₃ | ⟨z, zs', h₃, h₄⟩
          · rcases List.append_eq_nil.mp h₃ with ⟨h₅, _⟩
            rw [h₅]
            rfl
          · cases cs with
            | nil => rfl
            | cons d ds =>
                rw [List.cons_append] at h₃
                cases h₃
                rw [List.takeWhile_cons_of_neg (by simp [h₄])]
        · apply (braceUnit_none_iff _).mpr
          right
          intro x hx
          exact h₂ x (List.mem_append.mpr (Or.inl hx))
      · have hb : (c != '{') = true := by simp [hc]
        rw [hb]
        rfl

theorem groupFree_suffix :
    ∀ xs ys : Tox.Str, Tox.groupFree (xs ++ ys) = true →
      Tox.groupFree ys = true := by
  intro xs
  induction xs with
  | nil => intro ys h; exact h
  | cons c cs ih => intro ys h; exact ih ys (groupFree_cons h)

theorem groupFree_dropWhile (q : Char → Bool) (l : Tox.Str)
    (h : Tox.groupFree l = true) :
    Tox.groupFree (l.dropWhile q) = true := by
  induction l with
  | nil => exact h
  | cons c cs ih =>
      by_cases hc : q c
      · rw [List.dropWhile_cons_of_pos hc]
        exact ih (groupFree_cons h)
      · rw [List.dropWhile_cons_of_neg hc]
        exact h

theorem groupFree_pyStrip {p : Tox.Str} (h : Tox.groupFree p = true) :
    Tox.groupFree (Tox.pyStrip p) = true := by
  unfold Tox.pyStrip
  have h₁ : Tox.groupFree (p.dropWhile Tox.pyIsSpace) = true :=
    groupFree_dropWhile _ _ h
  set q := p.dropWhile Tox.pyIsSpace with hq
  rcases (List.dropWhile_suffix Tox.pyIsSpace (l := q.reverse)) with ⟨xs, hxs⟩
  have hdecomp : q = (q.reverse.dropWhile Tox.pyIsSpace).reverse ++ xs.reverse := by
    calc q = q.reverse.reverse := by rw [List.reverse_reverse]
    _ = (xs ++ q.reverse.dropWhile Tox.pyIsSpace).reverse := by rw [hxs]
    _ = (q.reverse.dropWhile Tox.pyIsSpace).reverse ++ xs.reverse := by
          rw [List.reverse_append]
  exact groupFree_append_left _ _ (hdecomp ▸ h₁)

theorem not_mem_pyStrip {c : Char} {p : Tox.Str} (h : c ∉ p) :
    c ∉ Tox.pyStrip p := by
  intro hmem
  apply h
  unfold Tox.pyStrip at hmem
  have h₁ : List.Sublist ((p.dropWhile Tox.pyIsSpace).reverse.dropWhile Tox.pyIsSpace)
      (p.dropWhile Tox.pyIsSpace).reverse := List.dropWhile_sublist _
  have h₂ := h₁.mem (List.mem_reverse.mp hmem)
  have h₃ := List.mem_reverse.mp h₂
  exact (List.dropWhile_sublist Tox.pyIsSpace (l := p)).mem h₃

theorem innerTokensGo_groupFree :
    ∀ cs : Tox.Str, Tox.groupFree cs = true →
      ∀ (fuel : Nat) (cur : Tox.Str), cs.length ≤ fuel →
        Tox.innerTokensGo fuel cur cs = [cur.reverse ++ cs] := by
  intro cs
  induction cs with
  | nil =>
      intro _ fuel cur _
      cases fuel <;> simp [Tox.innerTokensGo]
  | cons c cs ih =>
      intro h fuel cur hlen
      cases fuel with
      | zero => exact absurd hlen (by simp)
      | succ f =>
          have hlen' : cs.length ≤ f := Nat.succ_le_succ_iff.mp hlen
          rw [Tox.innerTokensGo, braceUnit_none_of_groupFree h,
            ih (groupFree_cons h) f (c :: cur) hlen']
          simp

theorem splitOn_single {sep : Char} :
    ∀ p : Tox.Str, sep ∉ p → Tox.splitOn sep p = [p] := by
  intro p
  induction p with
  | nil => intro _; rfl
  | cons c cs ih =>
      intro h
      have hc : ¬(c = sep) := by
        intro hcc
        exact h (hcc ▸ List.mem_cons_self _ _)
      rw [Tox.splitOn, if_neg hc,
        ih (fun hm => h (List.mem_cons.mpr (Or.inr hm)))]

theorem expandOne_id {p : Tox.Str} (hg : Tox.groupFree p = true)
    (hc : ',' ∉ p) : Tox.expandOne p = [p] := by
  unfold Tox.expandOne Tox.innerTokens
  rw [innerTokensGo_groupFree p hg (p.length + 1) [] (Nat.le_succ _)]
  simp only [List.reverse_nil, List.nil_append, List.map_cons, List.map_nil]
  rw [splitOn_single p hc]
  simp [Tox.listProd]

theorem flatMap_singleton {f : Tox.Str → List Tox.Str} :
    ∀ l : List Tox.Str, (∀ x ∈ l, f x = [x]) → l.flatMap f = l := by
  intro l
  induction l with
  | nil => intro _; rfl
  | cons x xs ih =>
      intro h
      rw [List.flatMap_cons, h x (List.mem_cons_self _ _),
        ih (fun y hy => h y (List.mem_cons.mpr (Or.inr hy)))]
      rfl

theorem commaTokens_eq_interNone :
    ∀ (cs cur : Tox.Str),
      Tox.commaTokens cur cs =
        Tox.interNone ((Tox.consHead cur.reverse (Tox.splitOn ',' cs)).map some) := by
  intro cs
  induction cs with
  | nil =>
      intro cur
      simp [Tox.commaTokens, Tox.splitOn, Tox.consHead, Tox.interNone]
  | cons c cs ih =>
      intro cur
      by_cases hc : c = ','
      · subst hc
        rw [Tox.commaTokens, if_pos rfl, Tox.splitOn, if_pos rfl]
        rcases hsp : Tox.splitOn ',' cs with _ | ⟨t, ts⟩
        · exact absurd hsp (splitOn_ne_nil ',' cs)
        · rw [ih []]
          rw [hsp]
          simp [Tox.consHead, Tox.interNone]
      · rw [Tox.commaTokens, if_neg hc, Tox.splitOn, if_neg hc, ih (c :: cur)]
        rcases hsp : Tox.splitOn ',' cs with _ | ⟨t, ts⟩
        · exact absurd hsp (splitOn_ne_nil ',' cs)
        · simp [Tox.consHead, List.reverse_cons, List.append_assoc]

theorem joinRuns_interNone :
    ∀ ps : List Tox.Str,
      Tox.joinRuns (Tox.interNone (ps.map some)) =
        (ps.filter (fun p => !p.isEmpty)).map Tox.pyStrip := by
  intro ps
  induction ps with
  | nil => rfl
  | cons p tail ih =>
      cases tail with
      | nil =>
          by_cases hp : p.isEmpty
          · simp [Tox.interNone, Tox.joinRuns, Tox.joinRunsGo, Tox.tokTruthy,
              hp, List.filter]
          · simp [Tox.interNone, Tox.joinRuns, Tox.joinRunsGo, Tox.tokTruthy,
              Tox.tokStr, hp, List.filter]
      | cons q rest =>
          rw [Tox.joinRuns] at ih ⊢
          by_cases hp : p.isEmpty
          · simp only [List.map_cons, Tox.interNone, Tox.joinRunsGo,
              Tox.tokTruthy, hp, Bool.not_true, Bool.false_eq_true, if_false]
            rw [← List.map_cons, ih]
            simp [List.filter, hp]
          · simp only [List.map_cons, Tox.interNone, Tox.joinRunsGo,
              Tox.tokTruthy, hp, Bool.not_false, if_true, Tox.tokStr,
              Bool.false_eq_true, if_false]
            rw [← List.map_cons, ih]
            simp [List.filter, hp]

/-- Claim C8 (amended): for an expression containing no brace group,
expansion yields the comma-separated segments, each stripped of
surrounding whitespace, with segments that are empty before stripping
dropped, in the original order. -/
theorem c8_expand_no_group_amended {s : Tox.Str}
    (h : Tox.groupFree s = true) :
    Tox.expand_envstr s =
      ((Tox.splitOn ',' s).filter (fun p => !p.isEmpty)).map Tox.pyStrip := by
  unfold Tox.expand_envstr Tox.envTokens
  rw [envTokensGo_groupFree s h (s.length + 1) [] (Nat.le_succ _),
    commaTokens_eq_interNone]
  rcases hsp : Tox.splitOn ',' s with _ | ⟨t, ts⟩
  · exact absurd hsp (splitOn_ne_nil ',' s)
  · have hch : Tox.consHead List.nil.reverse (t :: ts) = t :: ts := by
      simp [Tox.consHead]
    rw [hch, joinRuns_interNone]
    apply flatMap_singleton
    intro x hx
    rcases List.mem_map.mp hx with ⟨p, hpf, hpx⟩
    have hpmem : p ∈ Tox.splitOn ',' s := by
      rw [hsp]
      exact List.mem_of_mem_filter hpf
    have hpg : Tox.groupFree p = true := by
      rcases hsp2 : Tox.splitOn ',' s with _ | _
      · exact absurd hsp2 (splitOn_ne_nil ',' s)
      · exact groupFree_piece s h p hpmem
    have hpc : ',' ∉ p := mem_splitOn_not_sep ',' s p hpmem
    rw [← hpx]
    exact expandOne_id (groupFree_pyStrip hpg) (not_mem_pyStrip hpc)

/-- Claim C8 (witness for the amended statement): on `a, ,b`, which has
no brace group, expansion is the stripped comma split with the empty
segment dropped. -/
theorem c8_expand_no_group_amended_witness :
    Tox.groupFree ("a, ,b".data) = true ∧
      Tox.expand_envstr ("a, ,b".data) =
        ((Tox.splitOn ',' ("a, ,b".data)).filter
          (fun p => !p.isEmpty)).map Tox.pyStrip :=
  ⟨by decide, c8_expand_no_group_amended (by decide)⟩

/-- Claim C8 (counterexample): `a,,b` has no brace group, but expansion
gives `[a, b]`, not the comma-split segments `[a, "", b]`: the empty
segment is dropped, refuting the claim as stated. -/
theorem c8_counterexample :
    Tox.expand_envstr ("a,,b".data) = ["a".data, "b".data] ∧
      Tox.expand_envstr ("a,,b".data) ≠ Tox.splitOn ',' ("a,,b".data) := by
  constructor
  · decide
  · decide

/-! ### The substitution resolver: claims C9, C4, C10, C1, C7 -/

/-- Claim C9: a string with no opening brace resolves to itself (with
the reader state untouched), and the string consisting of exactly the
empty placeholder resolves to the platform path separator. -/
theorem c9_identity_and_pathsep :
    (∀ (ctx : Tox.Ctx) (st : Tox.RState) (v : Tox.Str)
        (name sect : Option Tox.Str) (cross : Bool) (n : Nat),
        v.contains '{' = false →
          Tox.reader_replace ctx (n + 1) v name sect cross st = (st, .ok v)) ∧
    (∀ (ctx : Tox.Ctx) (st : Tox.RState) (n : Nat),
        (Tox.reader_replace ctx (n + 1) ("{}".data) none none false st).2 =
          .ok ctx.pathsep) := by
  constructor
  · intro ctx st v name sect cross n h
    have h' : ¬(v.contains '{' = true) := by
      rw [h]
      simp
    rw [Tox.reader_replace, Tox.interp, if_neg h']
    rfl
  · intro ctx st n
    simp [Tox.reader_replace, Tox.interp, Tox.scanSub, Tox.replaceMatchF,
      Tox.matchItemRef, Tox.matchSubType, Tox.matchValue, Tox.matchValCore,
      Tox.matchValueTail, Tox.takeRun, Tox.noTypeChar, Tox.noValChar,
      Tox.noBrkChar, Tox.noDefChar, Tox.retStr]

/-- Claim C9 (witness): instances of both parts at concrete inputs. -/
theorem c9_identity_and_pathsep_witness :
    Tox.reader_replace ⟨[], [], fun _ => none, ";".data, "s".data, [], none⟩ 3
        ("abc".data) none none false Tox.st0 = (Tox.st0, .ok ("abc".data)) ∧
    (Tox.reader_replace ⟨[], [], fun _ => none, ";".data, "s".data, [], none⟩ 3
        ("{}".data) none none false Tox.st0).2 = .ok (";".data) :=
  ⟨c9_identity_and_pathsep.1 _ Tox.st0 ("abc".data) none none false 2 (by decide),
   c9_identity_and_pathsep.2 _ Tox.st0 2⟩

/-- Claim C4: with a setenv mapping active but not defining `HOME`, and
`HOME` absent from the process environment, `\x7benv:HOME\x7d` fails with the
undefined-variable configuration error, while `\x7benv:HOME:/root\x7d` yields
the default `/root`. -/
theorem c4_env_default (cfg : List (Tox.Str × List (Tox.Str × Tox.Str)))
    (subs : List (Tox.Str × Tox.Str)) (e : Tox.Str → Option Tox.Str)
    (ps sn : Tox.Str) (pa : List Tox.Str)
    (defs : List (Tox.Str × Tox.Str)) (n : Nat)
    (hd : Tox.lookupA ("HOME".data) defs = none)
    (he : e ("HOME".data) = none) :
    (Tox.reader_replace ⟨cfg, subs, e, ps, sn, pa, some defs⟩ (n + 2)
        ("{env:HOME}".data) none none false Tox.st0).2 =
      .error (.config
        ("substitution env: unknown environment variable HOME".data)) ∧
    (Tox.reader_replace ⟨cfg, subs, e, ps, sn, pa, some defs⟩ (n + 2)
        ("{env:HOME:/root}".data) none none false Tox.st0).2 =
      .ok ("/root".data) := by
  constructor
  · simp [Tox.reader_replace, Tox.interp, Tox.scanSub, Tox.replaceMatchF,
      Tox.replaceEnvF, Tox.getEnvironValueF, Tox.matchItemRef,
      Tox.matchSubType, Tox.matchValue, Tox.matchValCore, Tox.matchValueTail,
      Tox.takeRun, Tox.noTypeChar, Tox.noValChar, Tox.noBrkChar,
      Tox.noDefChar, Tox.lookupA, Tox.retStr, Tox.st0, he, hd]
  · simp [Tox.reader_replace, Tox.interp, Tox.scanSub, Tox.replaceMatchF,
      Tox.replaceEnvF, Tox.getEnvironValueF, Tox.matchItemRef,
      Tox.matchSubType, Tox.matchValue, Tox.matchValCore, Tox.matchValueTail,
      Tox.takeRun, Tox.noTypeChar, Tox.noValChar, Tox.noBrkChar,
      Tox.noDefChar, Tox.lookupA, Tox.retStr, Tox.st0, he, hd]

/-- Claim C4 (witness): the empty environment and empty setenv
definitions satisfy the absence hypotheses. -/
theorem c4_env_default_witness :
    (Tox.reader_replace ⟨[], [], fun _ => none, ":".data, "s".data, [], some []⟩ 2
        ("{env:HOME}".data) none none false Tox.st0).2 =
      .error (.config
        ("substitution env: unknown environment variable HOME".data)) ∧
    (Tox.reader_replace ⟨[], [], fun _ => none, ":".data, "s".data, [], some []⟩ 2
        ("{env:HOME:/root}".data) none none false Tox.st0).2 =
      .ok ("/root".data) :=
  c4_env_default [] [] (fun _ => none) (":".data) ("s".data) [] [] 0 rfl rfl

/-! ### Claim C10: the substitution stack is restored by every call -/

theorem retStr_fst (r : Tox.RState × Except Tox.RErr Tox.RRet) :
    (Tox.retStr r).1 = r.1 := by
  rcases r with ⟨st, e⟩
  rcases e with e | r
  · rfl
  · rcases r with s | o
    · rfl
    · rfl

theorem scanSub_stack
    (repl : Tox.Groups → Tox.Str → Tox.RState → Tox.RState × Except Tox.RErr Tox.Str)
    (hrepl : ∀ g m st, ((repl g m st).1).subststack = st.subststack) :
    ∀ (f : Nat) (prev : Option Char) (cs : Tox.Str) (st : Tox.RState),
      ((Tox.scanSub repl f prev cs st).1).subststack = st.subststack := by
  intro f
  induction f with
  | zero =>
      intro prev cs st
      cases cs <;> rfl
  | succ f ih =>
      intro prev cs st
      cases cs with
      | nil => rfl
      | cons c cs =>
          rw [Tox.scanSub]
          by_cases hc : (c = '{' && !(prev = some '\\')) = true
          · rw [if_pos hc]
            rcases hm : Tox.matchItemRef (c :: cs) with _ | ⟨g, rest⟩
            · simp only []
              rcases hs : Tox.scanSub repl f (some c) cs st with ⟨st₁, r₁⟩
              have h₁ : st₁.subststack = st.subststack := by
                have := ih (some c) cs st
                rw [hs] at this
                exact this
              rcases r₁ with e | t
              · exact h₁
              · exact h₁
            · simp only []
              rcases hr : repl g ((c :: cs).take ((c :: cs).length - rest.length)) st
                with ⟨st₁, r₁⟩
              have h₁ : st₁.subststack = st.subststack := by
                have := hrepl g ((c :: cs).take ((c :: cs).length - rest.length)) st
                rw [hr] at this
                exact this
              rcases r₁ with e | rs
              · exact h₁
              · show (match Tox.scanSub repl f (some '}') rest st₁ with
                  | (st₂, .ok tail) => (st₂, Except.ok (rs ++ tail))
                  | (st₂, .error e) => (st₂, Except.error e)).1.subststack
                    = st.subststack
                rcases hs : Tox.scanSub repl f (some '}') rest st₁ with ⟨st₂, r₂⟩
                have h₂ : st₂.subststack = st₁.subststack := by
                  have := ih (some '}') rest st₁
                  rw [hs] at this
                  exact this
                rcases r₂ with e | t
                · exact h₂.trans h₁
                · exact h₂.trans h₁
          · rw [if_neg hc]
            rcases hs : Tox.scanSub repl f (some c) cs st with ⟨st₁, r₁⟩
            have h₁ : st₁.subststack = st.subststack := by
              have := ih (some c) cs st
              rw [hs] at this
              exact this
            rcases r₁ with e | t
            · exact h₁
            · exact h₁

theorem substituteOtherF_stack
    (recur : Tox.RCall → Tox.RState → Tox.RState × Except Tox.RErr Tox.RRet)
    (hrec : ∀ call st, ((recur call st).1).subststack = st.subststack)
    (ctx : Tox.Ctx) (cross : Bool) (key : Tox.Str) (st : Tox.RState) :
    ((Tox.substituteOtherF recur ctx cross key st).1).subststack =
      st.subststack := by
  rw [Tox.substituteOtherF.eq_def]
  split
  · split
    · split
      · split
        · split
          · rfl
          · rw [retStr_fst]
            exact hrec _ _
        · rfl
      · rfl
    · rfl
  · rfl

theorem replaceMatchF_stack
    (recur : Tox.RCall → Tox.RState → Tox.RState × Except Tox.RErr Tox.RRet)
    (hrec : ∀ call st, ((recur call st).1).subststack = st.subststack)
    (ctx : Tox.Ctx) (cross : Bool) (g : Tox.Groups) (m : Tox.Str)
    (st : Tox.RState) :
    ((Tox.replaceMatchF recur ctx cross g m st).1).subststack =
      st.subststack := by
  have henv : ∀ name st', ((Tox.getEnvironValueF recur ctx name st').1).subststack
      = st'.subststack := by
    intro name st'
    rw [Tox.getEnvironValueF.eq_def]
    split
    · rfl
    · rcases hr : recur (.envget name none) st' with ⟨st₁, r₁⟩
      have h₁ : st₁.subststack = st'.subststack := by
        have := hrec (.envget name none) st'
        rw [hr] at this
        exact this
      rcases r₁ with e | r
      · exact h₁
      · rcases r with s | o
        · exact h₁
        · exact h₁
  rw [Tox.replaceMatchF.eq_def]
  split
  · split
    · exact substituteOtherF_stack recur hrec ctx cross _ st
    · rfl
  · split
    · rfl
    · split
      · rfl
      · split
        · split
          · rw [Tox.replaceEnvF.eq_def]
            split
            · rfl
            · rcases hr : Tox.getEnvironValueF recur ctx g.subValue st with ⟨st₁, r₁⟩
              have h₁ : st₁.subststack = st.subststack := by
                have := henv g.subValue st
                rw [hr] at this
                exact this
              rcases r₁ with e | o
              · simp only [hr]
                exact h₁
              · rcases o with _ | v
                · simp only [hr]
                  split
                  · exact h₁
                  · exact h₁
                · simp only [hr]
                  exact h₁
          · rfl
        · rw [Tox.replaceSubstitutionF.eq_def]
          split
          · rfl
          · exact substituteOtherF_stack recur hrec ctx cross _ st

theorem interp_stack (ctx : Tox.Ctx) :
    ∀ (n : Nat) (call : Tox.RCall) (st : Tox.RState),
      ((Tox.interp ctx n call st).1).subststack = st.subststack := by
  intro n
  induction n with
  | zero => intro call st; rfl
  | succ n ih =>
      intro call st
      rcases call with ⟨value, name, sect, cross⟩ | ⟨name, dflt⟩
      · rw [Tox.interp]
        by_cases hv : value.contains '{' = true
        · rw [if_pos hv]
          simp only []
          have hscan := scanSub_stack
            (Tox.replaceMatchF (Tox.interp ctx n) ctx cross)
            (fun g m st' => replaceMatchF_stack (Tox.interp ctx n)
              (fun call st'' => ih call st'') ctx cross g m st')
            (value.length + 1) none value
            { st with subststack := st.subststack ++ [((sect.getD ctx.sectionName), name)] }
          rcases hs : Tox.scanSub (Tox.replaceMatchF (Tox.interp ctx n) ctx cross)
              (value.length + 1) none value
              { st with subststack := st.subststack ++ [((sect.getD ctx.sectionName), name)] }
            with ⟨st₂, r₂⟩
          rw [hs] at hscan
          rcases r₂ with e | out
          · show st₂.subststack.dropLast = st.subststack
            rw [hscan]
            simp
          · show st₂.subststack.dropLast = st.subststack
            rw [hscan]
            simp
        · rw [if_neg hv]
      · rw [Tox.interp]
        rcases hres : Tox.lookupA name st.resolved with _ | v
        · simp only []
          by_cases hls : name ∈ st.lookupstack
          · rw [if_pos hls]
          · rw [if_neg hls]
            rcases hdefs : Tox.lookupA name (ctx.setenvDefs.getD []) with _ | val
            · rfl
            · simp only []
              rcases hr : Tox.interp ctx n (.rep val none none false)
                  { st with lookupstack := st.lookupstack ++ [name] }
                with ⟨st₂, r₂⟩
              have h₂ : st₂.subststack = st.subststack := by
                have := ih (.rep val none none false)
                  { st with lookupstack := st.lookupstack ++ [name] }
                rw [hr] at this
                exact this
              rcases r₂ with e | r
              · exact h₂
              · rcases r with s | o
                · exact h₂
                · exact h₂
        · rfl

/-! ### Claim C1: cross-section reference cycles fail -/

theorem takeRun_all_append (p : Char → Bool) :
    ∀ (xs : Tox.Str), (∀ c ∈ xs, p c = true) → ∀ ys,
      Tox.takeRun p (xs ++ ys) =
        (xs ++ (Tox.takeRun p ys).1, (Tox.takeRun p ys).2) := by
  intro xs
  induction xs with
  | nil => intro _ ys; simp
  | cons c cs ih =>
      intro h ys
      have hc : p c = true := h c (List.mem_cons_self _ _)
      rw [List.cons_append, Tox.takeRun, if_pos hc,
        ih (fun d hd => h d (List.mem_cons.mpr (Or.inr hd))) ys]
      rfl

theorem plainName_parts {c : Char} (h : Tox.plainNameChar c = true) :
    ¬(c = ':') ∧ ¬(c = ',') ∧ ¬(c = '{') ∧ ¬(c = '}') ∧
      ¬(c = '[') ∧ ¬(c = ']') ∧ ¬(c = '\\') := by
  simp [Tox.plainNameChar] at h
  tauto

theorem plainName_noBrk {c : Char} (h : Tox.plainNameChar c = true) :
    Tox.noBrkChar c = true := by
  obtain ⟨_, h₂, h₃, h₄, _, _, _⟩ := plainName_parts h
  simp [Tox.noBrkChar, h₂, h₃, h₄]

theorem plainName_noVal {c : Char} (h : Tox.plainNameChar c = true) :
    Tox.noValChar c = true := by
  obtain ⟨h₁, h₂, h₃, h₄, _, _, _⟩ := plainName_parts h
  simp [Tox.noValChar, h₁, h₂, h₃, h₄]

theorem plainName_ne_rbrack {c : Char} (h : Tox.plainNameChar c = true) :
    ¬(c = ']') := (plainName_parts h).2.2.2.2.2.1

theorem bracketSplitsL_none :
    ∀ l : Tox.Str, (∀ c ∈ l, ¬(c = ']')) → Tox.bracketSplitsL l = [] := by
  intro l
  induction l with
  | nil => intro _; rfl
  | cons c cs ih =>
      intro h
      rw [Tox.bracketSplitsL,
        if_neg (h c (List.mem_cons_self _ _)),
        ih (fun d hd => h d (List.mem_cons.mpr (Or.inr hd)))]
      rfl

theorem bracketSplitsL_single :
    ∀ (S K : Tox.Str), (∀ c ∈ S, ¬(c = ']')) → (∀ c ∈ K, ¬(c = ']')) →
      Tox.bracketSplitsL (S ++ ']' :: K) = [(S, K)] := by
  intro S
  induction S with
  | nil =>
      intro K _ hK
      rw [List.nil_append, Tox.bracketSplitsL, if_pos rfl,
        bracketSplitsL_none K hK]
      rfl
  | cons c cs ih =>
      intro K hS hK
      rw [List.cons_append, Tox.bracketSplitsL,
        if_neg (hS c (List.mem_cons_self _ _)),
        ih K (fun d hd => hS d (List.mem_cons.mpr (Or.inr hd))) hK]
      rfl

theorem splitAtRBrack_append :
    ∀ (S K : Tox.Str), (∀ c ∈ S, ¬(c = ']')) →
      Tox.splitAtRBrack (S ++ ']' :: K) = some (S, K) := by
  intro S
  induction S with
  | nil => intro K _; rw [List.nil_append, Tox.splitAtRBrack, if_pos rfl]
  | cons c cs ih =>
      intro K hS
      rw [List.cons_append, Tox.splitAtRBrack,
        if_neg (hS c (List.mem_cons_self _ _)),
        ih K (fun d hd => hS d (List.mem_cons.mpr (Or.inr hd)))]

/-- The placeholder `{[S]K}` over plain section and key names parses as
a bare cross-section substitution value consuming the whole string. -/
theorem matchItemRef_refValue (S K : Tox.Str)
    (hS : ∀ c ∈ S, Tox.plainNameChar c = true)
    (hK : ∀ c ∈ K, Tox.plainNameChar c = true) :
    Tox.matchItemRef (Tox.refValue S K) =
      some (⟨none, '[' :: (S ++ ']' :: K), none⟩, []) := by
  have hSbrk : ∀ c ∈ S, Tox.noBrkChar c = true :=
    fun c hc => plainName_noBrk (hS c hc)
  have hKbrk : ∀ c ∈ K, Tox.noBrkChar c = true :=
    fun c hc => plainName_noBrk (hK c hc)
  have hKval : ∀ c ∈ K, Tox.noValChar c = true :=
    fun c hc => plainName_noVal (hK c hc)
  have hrunBrk : Tox.takeRun Tox.noBrkChar (S ++ ']' :: (K ++ ['}'])) =
      (S ++ ']' :: K, ['}']) := by
    rw [takeRun_all_append Tox.noBrkChar S hSbrk]
    rw [show (']' :: (K ++ ['}'])) = (']' :: K) ++ ['}'] by simp]
    rw [takeRun_all_append Tox.noBrkChar (']' :: K)
      (by
        intro c hc
        rcases List.mem_cons.mp hc with h | h
        · rw [h]; rfl
        · exact hKbrk c h)]
    simp [Tox.takeRun, Tox.noBrkChar]
  have hrunVal : Tox.takeRun Tox.noValChar (K ++ ['}']) = (K, ['}']) := by
    rw [takeRun_all_append Tox.noValChar K hKval]
    simp [Tox.takeRun, Tox.noValChar]
  rw [Tox.refValue, Tox.matchItemRef]
  rw [show Tox.matchSubType ('[' :: (S ++ ']' :: (K ++ ['}']))) = none from rfl]
  rw [Tox.matchValue, hrunBrk]
  rw [bracketSplitsL_single S K
    (fun c hc => plainName_ne_rbrack (hS c hc))
    (fun c hc => plainName_ne_rbrack (hK c hc))]
  rw [show ([(S, K)] : List (Tox.Str × Tox.Str)).reverse = [(S, K)] by simp]
  rw [Tox.tryBrk, Tox.matchValCore, hrunVal]
  rw [show Tox.matchValueTail ['}'] = some (none, []) from rfl]
  simp

theorem scanSub_nil
    (repl : Tox.Groups → Tox.Str → Tox.RState → Tox.RState × Except Tox.RErr Tox.Str)
    (f : Nat) (prev : Option Char) (st : Tox.RState) :
    Tox.scanSub repl f prev [] st = (st, .ok []) := by
  cases f <;> rfl

/-- The pattern scan over exactly `{[S]K}` is a single full-width match:
it returns whatever the per-match replacement returns. -/
theorem scanSub_refValue
    (repl : Tox.Groups → Tox.Str → Tox.RState → Tox.RState × Except Tox.RErr Tox.Str)
    (S K : Tox.Str)
    (hS : ∀ c ∈ S, Tox.plainNameChar c = true)
    (hK : ∀ c ∈ K, Tox.plainNameChar c = true) (st : Tox.RState) :
    Tox.scanSub repl ((Tox.refValue S K).length + 1) none (Tox.refValue S K) st =
      repl ⟨none, '[' :: (S ++ ']' :: K), none⟩ (Tox.refValue S K) st := by
  have hm := matchItemRef_refValue S K hS hK
  rw [show Tox.refValue S K = '{' :: ('[' :: (S ++ ']' :: (K ++ ['}'])))
    from rfl] at hm ⊢
  rw [Tox.scanSub]
  rw [if_pos (by simp)]
  rw [hm]
  simp only [List.length_nil, Nat.sub_zero, List.take_length]
  rcases hr : repl ⟨none, '[' :: (S ++ ']' :: K), none⟩
      ('{' :: ('[' :: (S ++ ']' :: (K ++ ['}'])))) st with ⟨st₁, r₁⟩
  rcases r₁ with e | rs
  · rfl
  · show (match Tox.scanSub repl
        ('{' :: ('[' :: (S ++ ']' :: (K ++ ['}'])))).length
        (some '}') [] st₁ with
      | (st₂, .ok tail) => (st₂, Except.ok (rs ++ tail))
      | (st₂, .error e) => (st₂, Except.error e)) = (st₁, Except.ok rs)
    rw [scanSub_nil]
    simp

theorem refValue_contains (S K : Tox.Str) :
    (Tox.refValue S K).contains '{' = true := rfl

theorem refValue_mem (S K : Tox.Str) : '{' ∈ Tox.refValue S K :=
  List.mem_cons_self _ _

/-- On a bare bracketed substitution value the match replacement routes
to the cross-section lookup (it is non-empty and is neither `opts` nor
`packages`). -/
theorem replaceMatchF_crossref
    (recur : Tox.RCall → Tox.RState → Tox.RState × Except Tox.RErr Tox.RRet)
    (ctx : Tox.Ctx) (S K m : Tox.Str) (st : Tox.RState)
    (hsub : Tox.lookupA ('[' :: (S ++ ']' :: K)) ctx.subs = none) :
    Tox.replaceMatchF recur ctx false ⟨none, '[' :: (S ++ ']' :: K), none⟩ m st =
      Tox.substituteOtherF recur ctx false ('[' :: (S ++ ']' :: K)) st := by
  rw [Tox.replaceMatchF]
  rw [if_neg (by simp)]
  rw [if_neg (by
    simp only [Tox.Groups.subValue]
    simp [show "opts".data = ['o', 'p', 't', 's'] from rfl,
      show "packages".data = ['p', 'a', 'c', 'k', 'a', 'g', 'e', 's'] from rfl])]
  rw [if_neg (by simp)]
  rw [Tox.replaceSubstitutionF]
  rw [hsub]

/-- The cross-section lookup on `[S]K` with both lookups succeeding:
either the cycle guard fires, or the raw value is resolved recursively
in the context of section `S`. -/
theorem substituteOtherF_found
    (recur : Tox.RCall → Tox.RState → Tox.RState × Except Tox.RErr Tox.RRet)
    (ctx : Tox.Ctx) (cross : Bool) (S K v : Tox.Str)
    (secmap : List (Tox.Str × Tox.Str)) (st : Tox.RState)
    (hS : ∀ c ∈ S, Tox.plainNameChar c = true)
    (hsec : Tox.lookupSec S ctx.cfg = some secmap)
    (hitem : Tox.lookupA K secmap = some v) :
    Tox.substituteOtherF recur ctx cross ('[' :: (S ++ ']' :: K)) st =
      if (S, some K) ∈ st.subststack then
        (st, .error (.value ("already in: ".data ++ S ++ K)))
      else Tox.retStr (recur (.rep v (some K) (some S) cross) st) := by
  rw [Tox.substituteOtherF]
  rw [splitAtRBrack_append S K (fun c hc => plainName_ne_rbrack (hS c hc))]
  simp only []
  rw [hsec]
  simp only []
  rw [hitem]

/-- One direction of the mutual-reference cycle: resolving the raw value
of `(A, K1)` (which is `{[B]K2}`) in the context of section `A` fails
with an error. -/
theorem crossref_cycle_errs
    (cfg : List (Tox.Str × List (Tox.Str × Tox.Str)))
    (subs : List (Tox.Str × Tox.Str)) (e : Tox.Str → Option Tox.Str)
    (ps sn : Tox.Str) (pa : List Tox.Str)
    (sd : Option (List (Tox.Str × Tox.Str)))
    (A K1 B K2 : Tox.Str) (secA secB : List (Tox.Str × Tox.Str)) (n : Nat)
    (hA : ∀ c ∈ A, Tox.plainNameChar c = true)
    (hK1 : ∀ c ∈ K1, Tox.plainNameChar c = true)
    (hB : ∀ c ∈ B, Tox.plainNameChar c = true)
    (hK2 : ∀ c ∈ K2, Tox.plainNameChar c = true)
    (hSA : Tox.lookupSec A cfg = some secA)
    (hK1v : Tox.lookupA K1 secA = some (Tox.refValue B K2))
    (hSB : Tox.lookupSec B cfg = some secB)
    (hK2v : Tox.lookupA K2 secB = some (Tox.refValue A K1))
    (hsub1 : Tox.lookupA ('[' :: (B ++ ']' :: K2)) subs = none)
    (hsub2 : Tox.lookupA ('[' :: (A ++ ']' :: K1)) subs = none) :
    Tox.isErr (Tox.reader_replace ⟨cfg, subs, e, ps, sn, pa, sd⟩ (n + 2)
      (Tox.refValue B K2) (some K1) (some A) false Tox.st0).2 = true := by
  have hscanB := fun repl st => scanSub_refValue repl B K2 hB hK2 st
  have hscanA := fun repl st => scanSub_refValue repl A K1 hA hK1 st
  have hrmB := fun recur m st => replaceMatchF_crossref recur
    ⟨cfg, subs, e, ps, sn, pa, sd⟩ B K2 m st hsub1
  have hrmA := fun recur m st => replaceMatchF_crossref recur
    ⟨cfg, subs, e, ps, sn, pa, sd⟩ A K1 m st hsub2
  have hsoB := fun recur cross st => substituteOtherF_found recur
    ⟨cfg, subs, e, ps, sn, pa, sd⟩ cross B K2 (Tox.refValue A K1) secB st
    hB hSB hK2v
  have hsoA := fun recur cross st => substituteOtherF_found recur
    ⟨cfg, subs, e, ps, sn, pa, sd⟩ cross A K1 (Tox.refValue B K2) secA st
    hA hSA hK1v
  by_cases hmem : ((B, some K2) : Tox.Str × Option Tox.Str) = (A, some K1)
  · simp [Tox.reader_replace, Tox.interp, refValue_contains, Tox.st0,
      refValue_mem, hscanB, hscanA, hrmB, hrmA, hsoB, hsoA, hmem,
      Tox.retStr, Tox.isErr]
  · simp [Tox.reader_replace, Tox.interp, refValue_contains, Tox.st0,
      refValue_mem, hscanB, hscanA, hrmB, hrmA, hsoB, hsoA, hmem,
      Tox.retStr, Tox.isErr]

/-- Claim C1: for a pair of mutually referential cross-section
placeholders (`A.K1 = \x7b[B]K2\x7d` and `B.K2 = \x7b[A]K1\x7d`, over plain names
not bound in the local namespace), resolving either key fails with an
error instead of returning a value: the repeated `(section, key)` frame
on the substitution stack aborts the resolution. -/
theorem c1_mutual_crossref_cycle_fails
    (cfg : List (Tox.Str × List (Tox.Str × Tox.Str)))
    (subs : List (Tox.Str × Tox.Str)) (e : Tox.Str → Option Tox.Str)
    (ps sn : Tox.Str) (pa : List Tox.Str)
    (sd : Option (List (Tox.Str × Tox.Str)))
    (A K1 B K2 : Tox.Str) (secA secB : List (Tox.Str × Tox.Str)) (n : Nat)
    (hA : ∀ c ∈ A, Tox.plainNameChar c = true)
    (hK1 : ∀ c ∈ K1, Tox.plainNameChar c = true)
    (hB : ∀ c ∈ B, Tox.plainNameChar c = true)
    (hK2 : ∀ c ∈ K2, Tox.plainNameChar c = true)
    (hSA : Tox.lookupSec A cfg = some secA)
    (hK1v : Tox.lookupA K1 secA = some (Tox.refValue B K2))
    (hSB : Tox.lookupSec B cfg = some secB)
    (hK2v : Tox.lookupA K2 secB = some (Tox.refValue A K1))
    (hsub1 : Tox.lookupA ('[' :: (B ++ ']' :: K2)) subs = none)
    (hsub2 : Tox.lookupA ('[' :: (A ++ ']' :: K1)) subs = none) :
    Tox.isErr (Tox.reader_replace ⟨cfg, subs, e, ps, sn, pa, sd⟩ (n + 2)
      (Tox.refValue B K2) (some K1) (some A) false Tox.st0).2 = true ∧
    Tox.isErr (Tox.reader_replace ⟨cfg, subs, e, ps, sn, pa, sd⟩ (n + 2)
      (Tox.refValue A K1) (some K2) (some B) false Tox.st0).2 = true :=
  ⟨crossref_cycle_errs cfg subs e ps sn pa sd A K1 B K2 secA secB n
      hA hK1 hB hK2 hSA hK1v hSB hK2v hsub1 hsub2,
   crossref_cycle_errs cfg subs e ps sn pa sd B K2 A K1 secB secA n
      hB hK2 hA hK1 hSB hK2v hSA hK1v hsub2 hsub1⟩

/-- Claim C1 (witness): a concrete two-section configuration with the
mutual reference `A.k1 = \x7b[B]k2\x7d`, `B.k2 = \x7b[A]k1\x7d`. -/
theorem c1_mutual_crossref_cycle_fails_witness :
    Tox.isErr (Tox.reader_replace
      ⟨[("A".data, [("k1".data, Tox.refValue ("B".data) ("k2".data))]),
        ("B".data, [("k2".data, Tox.refValue ("A".data) ("k1".data))])],
       [], fun _ => none, ":".data, "A".data, [], none⟩ 2
      (Tox.refValue ("B".data) ("k2".data)) (some ("k1".data))
      (some ("A".data)) false Tox.st0).2 = true :=
  (c1_mutual_crossref_cycle_fails
    [("A".data, [("k1".data, Tox.refValue ("B".data) ("k2".data))]),
     ("B".data, [("k2".data, Tox.refValue ("A".data) ("k1".data))])]
    [] (fun _ => none) (":".data) ("A".data)
    [] none ("A".data) ("k1".data) ("B".data) ("k2".data)
    [("k1".data, Tox.refValue ("B".data) ("k2".data))]
    [("k2".data, Tox.refValue ("A".data) ("k1".data))] 0
    (by decide) (by decide) (by decide) (by decide)
    (by decide) (by decide) (by decide) (by decide) rfl rfl).1

/-! ### Claim C7: setenv lookup re-entry -/

/-- Claim C7 (counterexample): with the setenv definition `C=\x7bC\x7d` (the
claim's own example), no namespace entry and no process variable `C`,
the lookup raises a substitution-key ConfigError instead of returning
the supplied default `d`: the cycle guard of `SetenvDict` only protects
`env:` placeholders, and a bare `\x7bC\x7d` is a namespace substitution. -/
theorem c7_counterexample :
    (Tox.setenv_get ⟨[], [], fun _ => none, ":".data, "s".data, [],
        some [("C".data, "{C}".data)]⟩ 3
      ("C".data) (some ("d".data)) Tox.st0).2 =
      .error (.config ("substitution key not found: C".data)) ∧
    (Tox.setenv_get ⟨[], [], fun _ => none, ":".data, "s".data, [],
        some [("C".data, "{C}".data)]⟩ 3
      ("C".data) (some ("d".data)) Tox.st0).2 ≠ .ok (some ("d".data)) := by
  have h1 : (Tox.setenv_get ⟨[], [], fun _ => none, ":".data, "s".data, [],
        some [("C".data, "{C}".data)]⟩ 3
      ("C".data) (some ("d".data)) Tox.st0).2 =
      .error (.config ("substitution key not found: C".data)) := rfl
  refine ⟨h1, ?_⟩
  rw [h1]
  simp

/-- Claim C7 (amended): a setenv definition that re-enters its own name
through an `env:` placeholder does not loop: the inner lookup falls
back to the process environment's value; when the process environment
lacks the name, the placeholder is treated as undefined, which uses the
placeholder's own default when present and otherwise fails the
resolution with a ConfigError — the supplied lookup default is never
returned for a defined name. -/
theorem c7_env_cycle_fallback_amended
    (cfg : List (Tox.Str × List (Tox.Str × Tox.Str)))
    (subs : List (Tox.Str × Tox.Str)) (e : Tox.Str → Option Tox.Str)
    (ps sn : Tox.Str) (pa : List Tox.Str) (d : Option Tox.Str) (n : Nat) :
    ((Tox.setenv_get ⟨cfg, subs, e, ps, sn, pa,
        some [("C".data, "{env:C}".data)]⟩ (n + 3)
      ("C".data) d Tox.st0).2 =
      match e ("C".data) with
      | some v => .ok (some v)
      | none => .error (.config
          ("substitution env: unknown environment variable C".data))) ∧
    (e ("C".data) = none →
      (Tox.setenv_get ⟨cfg, subs, e, ps, sn, pa,
          some [("C".data, "{env:C:fb}".data)]⟩ (n + 3)
        ("C".data) d Tox.st0).2 = .ok (some ("fb".data))) := by
  constructor
  · rcases he : e ("C".data) with _ | v
    · simp [Tox.setenv_get, Tox.interp, Tox.scanSub, Tox.replaceMatchF,
        Tox.replaceEnvF, Tox.getEnvironValueF, Tox.matchItemRef,
        Tox.matchSubType, Tox.matchValue, Tox.matchValCore,
        Tox.matchValueTail, Tox.takeRun, Tox.noTypeChar, Tox.noValChar,
        Tox.noBrkChar, Tox.noDefChar, Tox.lookupA, Tox.retStr, Tox.st0, he]
    · simp [Tox.setenv_get, Tox.interp, Tox.scanSub, Tox.replaceMatchF,
        Tox.replaceEnvF, Tox.getEnvironValueF, Tox.matchItemRef,
        Tox.matchSubType, Tox.matchValue, Tox.matchValCore,
        Tox.matchValueTail, Tox.takeRun, Tox.noTypeChar, Tox.noValChar,
        Tox.noBrkChar, Tox.noDefChar, Tox.lookupA, Tox.retStr, Tox.st0, he]
  · intro he
    simp [Tox.setenv_get, Tox.interp, Tox.scanSub, Tox.replaceMatchF,
      Tox.replaceEnvF, Tox.getEnvironValueF, Tox.matchItemRef,
      Tox.matchSubType, Tox.matchValue, Tox.matchValCore,
      Tox.matchValueTail, Tox.takeRun, Tox.noTypeChar, Tox.noValChar,
      Tox.noBrkChar, Tox.noDefChar, Tox.lookupA, Tox.retStr, Tox.st0, he]

/-- Claim C7 (witness for the amended statement): the empty process
environment instantiates both parts. -/
theorem c7_env_cycle_fallback_amended_witness :
    ((Tox.setenv_get ⟨[], [], fun _ => none, ":".data, "s".data, [],
        some [("C".data, "{env:C}".data)]⟩ 3
      ("C".data) (some ("d".data)) Tox.st0).2 =
      .error (.config
        ("substitution env: unknown environment variable C".data))) ∧
    ((Tox.setenv_get ⟨[], [], fun _ => none, ":".data, "s".data, [],
        some [("C".data, "{env:C:fb}".data)]⟩ 3
      ("C".data) (some ("d".data)) Tox.st0).2 = .ok (some ("fb".data))) :=
  ⟨(c7_env_cycle_fallback_amended [] [] (fun _ => none) (":".data)
      ("s".data) [] (some ("d".data)) 0).1,
   (c7_env_cycle_fallback_amended [] [] (fun _ => none) (":".data)
      ("s".data) [] (some ("d".data)) 0).2 rfl⟩

/-- Claim C10: an invocation of the reader substitution entry point
leaves the substitution stack exactly as it found it, whether it
returns normally or with an error: the frame it pushes is always popped
on exit. -/
theorem c10_subststack_restored (ctx : Tox.Ctx) (n : Nat) (value : Tox.Str)
    (name sect : Option Tox.Str) (cross : Bool) (st : Tox.RState) :
    ((Tox.reader_replace ctx n value name sect cross st).1).subststack =
      st.subststack := by
  rw [Tox.reader_replace, retStr_fst]
  exact interp_stack ctx n _ st

/-! ### Claim C5: a concrete two-command block -/

set_option maxHeartbeats 1000000 in
/-- Claim C5: the block `cmd1 \⏎  --flag \x7bposargs\x7d⏎cmd2 \x7benv:FOO:bar\x7d` with
positional arguments `[a, b]` and no variable `FOO` in the process
environment yields exactly the argv vectors `[cmd1, --flag, a, b]` and
`[cmd2, bar]`: the backslash joins the first two physical lines, the
positional arguments are spliced, and the env placeholder falls back to
its default. -/
theorem c5_command_block (cfg : List (Tox.Str × List (Tox.Str × Tox.Str)))
    (subs : List (Tox.Str × Tox.Str)) (e : Tox.Str → Option Tox.Str)
    (ps sn : Tox.Str) (n : Nat)
    (he : e ("FOO".data) = none) :
    (Tox.getargvlist ⟨cfg, subs, e, ps, sn, ["a".data, "b".data], none⟩
      (n + 1) ("cmd1 \\\n  --flag {posargs}\ncmd2 {env:FOO:bar}".data)
      Tox.st0).2 =
      .ok [["cmd1".data, "--flag".data, "a".data, "b".data],
           ["cmd2".data, "bar".data]] := by
  have hw2 : Tox.word_sub ⟨cfg, subs, e, ps, sn, ["a".data, "b".data], none⟩
      (n + 1) Tox.st0 ("{env:FOO:bar}".data) = (Tox.st0, .ok ("bar".data)) := by
    simp [Tox.word_sub, Tox.reader_replace, Tox.interp, Tox.scanSub,
      Tox.replaceMatchF, Tox.replaceEnvF, Tox.getEnvironValueF,
      Tox.matchItemRef, Tox.matchSubType, Tox.matchValue, Tox.matchValCore,
      Tox.matchValueTail, Tox.takeRun, Tox.noTypeChar, Tox.noValChar,
      Tox.noBrkChar, Tox.noDefChar, Tox.lookupA, Tox.retStr,
      Tox.replacePair, Tox.st0, he]
  have hwa : Tox.word_sub ⟨cfg, subs, e, ps, sn, ["a".data, "b".data], none⟩
      (n + 1) Tox.st0 ("cmd2".data) = (Tox.st0, .ok ("cmd2".data)) := rfl
  have hwb : Tox.word_sub ⟨cfg, subs, e, ps, sn, ["a".data, "b".data], none⟩
      (n + 1) Tox.st0 (" ".data) = (Tox.st0, .ok (" ".data)) := rfl
  have hcw : Tox.cmdWords ("cmd2 {env:FOO:bar}".data) =
      ["cmd2".data, " ".data, "{env:FOO:bar}".data] := rfl
  have hline2 : Tox.processcommand
      ⟨cfg, subs, e, ps, sn, ["a".data, "b".data], none⟩ (n + 1) Tox.st0
      ("cmd2 {env:FOO:bar}".data) =
      (Tox.st0, .ok ["cmd2".data, "bar".data]) := by
    simp [Tox.processcommand, Tox.buildCommand, hcw, hwa, hwb, hw2,
      List.isPrefixOf, Tox.shlexSplit, Tox.shlexGo, Tox.shlexWs,
      Tox.dropLine]
  have hline1 : Tox.processcommand
      ⟨cfg, subs, e, ps, sn, ["a".data, "b".data], none⟩ (n + 1) Tox.st0
      (" cmd1   --flag {posargs}".data) =
      (Tox.st0, .ok ["cmd1".data, "--flag".data, "a".data, "b".data]) := rfl
  simp [Tox.getargvlist, Tox.gavLines, Tox.pySplitlines, Tox.splitlinesGo,
    Tox.isLineBreak, Tox.pyRstrip, Tox.pyIsSpace, Tox.is_section_substitution,
    Tox.secSubChar, Tox.seekCloseGo, Tox.bracketSplitsL, Tox.takeRun,
    hline1, hline2]

/-- Claim C5 (witness): the empty process environment has no `FOO`. -/
theorem c5_command_block_witness :
    (Tox.getargvlist ⟨[], [], fun _ => none, ":".data, "s".data,
      ["a".data, "b".data], none⟩
      1 ("cmd1 \\\n  --flag {posargs}\ncmd2 {env:FOO:bar}".data)
      Tox.st0).2 =
      .ok [["cmd1".data, "--flag".data, "a".data, "b".data],
           ["cmd2".data, "bar".data]] :=
  c5_command_block [] [] (fun _ => none) (":".data) ("s".data) 0 rfl

/-! ### Claim C6: emptiness of output vectors -/

/-- Claim C6 (counterexample): the one-line block `\x7bposargs\x7d` with no
positional arguments is processed without error into a list containing
one EMPTY argument vector, refuting the claim that every vector of an
error-free result is non-empty. -/
theorem c6_counterexample :
    (Tox.getargvlist ⟨[], [], fun _ => none, ":".data, "t".data, [], none⟩ 2
      ("{posargs}".data) Tox.st0).2 = .ok [[]] := rfl

theorem shlexGo_mono :
    ∀ (f : Nat) (mode : Tox.ShMode) (cs : Tox.Str) (acc l : List Tox.Str),
      Tox.shlexGo f mode cs acc = .ok l → acc.length ≤ l.length := by
  intro f
  induction f with
  | zero =>
      intro mode cs acc l h
      rcases mode with _ | ⟨token, quoted⟩ | ⟨q, token⟩ <;>
        rcases cs with _ | ⟨c, cs⟩
      · rw [Tox.shlexGo] at h
        cases h
        exact Nat.le_refl _
      · rw [Tox.shlexGo] at h
        cases h
      · rw [Tox.shlexGo] at h
        split at h
        · cases h
          simp
        · cases h
          exact Nat.le_refl _
      · rw [Tox.shlexGo] at h
        cases h
      · rw [Tox.shlexGo] at h
        cases h
      · rw [Tox.shlexGo] at h
        cases h
  | succ f ih =>
      intro mode cs acc l h
      rcases mode with _ | ⟨token, quoted⟩ | ⟨q, token⟩ <;>
        rcases cs with _ | ⟨c, cs⟩
      · rw [Tox.shlexGo] at h
        cases h
        exact Nat.le_refl _
      · rw [Tox.shlexGo] at h
        split at h
        · exact ih _ _ _ _ h
        · split at h
          · exact ih _ _ _ _ h
          · split at h
            · exact ih _ _ _ _ h
            · exact ih _ _ _ _ h
      · rw [Tox.shlexGo] at h
        split at h
        · cases h
          simp
        · cases h
          exact Nat.le_refl _
      · rw [Tox.shlexGo] at h
        split at h
        · split at h
          · exact Nat.le_trans (by simp) (ih _ _ _ _ h)
          · exact ih _ _ _ _ h
        · split at h
          · split at h
            · exact Nat.le_trans (by simp) (ih _ _ _ _ h)
            · exact ih _ _ _ _ h
          · split at h
            · exact ih _ _ _ _ h
            · exact ih _ _ _ _ h
      · rw [Tox.shlexGo] at h
        cases h
      · rw [Tox.shlexGo] at h
        split at h
        · exact ih _ _ _ _ h
        · exact ih _ _ _ _ h

theorem shlexGo_emits :
    ∀ f : Nat,
      (∀ (token : Tox.Str) (quoted : Bool) (cs : Tox.Str) (acc l : List Tox.Str),
        (¬token.isEmpty = true ∨ quoted = true) →
        Tox.shlexGo f (.word token quoted) cs acc = .ok l →
          acc.length < l.length) ∧
      (∀ (q : Char) (token cs : Tox.Str) (acc l : List Tox.Str),
        Tox.shlexGo f (.quo q token) cs acc = .ok l →
          acc.length < l.length) := by
  intro f
  induction f with
  | zero =>
      constructor
      · intro token quoted cs acc l hinv h
        rcases cs with _ | ⟨c, cs⟩
        · rw [Tox.shlexGo] at h
          split at h
          · cases h
            simp
          · rename_i hcond
            exfalso
            rcases hinv with h₁ | h₁
            · simp at hcond
              exact absurd hcond.1 (by simpa using h₁)
            · simp at hcond
              exact absurd h₁ (by simp [hcond.2])
        · rw [Tox.shlexGo] at h
          cases h
      · intro q token cs acc l h
        rcases cs with _ | ⟨c, cs⟩ <;> rw [Tox.shlexGo] at h <;> cases h
  | succ f ih =>
      constructor
      · intro token quoted cs acc l hinv h
        rcases cs with _ | ⟨c, cs⟩
        · rw [Tox.shlexGo] at h
          split at h
          · cases h
            simp
          · rename_i hcond
            exfalso
            rcases hinv with h₁ | h₁
            · simp at hcond
              exact absurd hcond.1 (by simpa using h₁)
            · simp at hcond
              exact absurd h₁ (by simp [hcond.2])
        · rw [Tox.shlexGo] at h
          split at h
          · split at h
            · exact Nat.lt_of_lt_of_le (by simp) (shlexGo_mono _ _ _ _ _ h)
            · rename_i hcond
              exfalso
              rcases hinv with h₁ | h₁
              · simp at hcond
                exact absurd hcond.1 (by simpa using h₁)
              · simp at hcond
                exact absurd h₁ (by simp [hcond.2])
          · split at h
            · split at h
              · exact Nat.lt_of_lt_of_le (by simp) (shlexGo_mono _ _ _ _ _ h)
              · rename_i hcond
                exfalso
                rcases hinv with h₁ | h₁
                · simp at hcond
                  exact absurd hcond.1 (by simpa using h₁)
                · simp at hcond
                  exact absurd h₁ (by simp [hcond.2])
            · split at h
              · exact ih.2 _ _ _ _ _ h
              · exact ih.1 _ _ _ _ _ (Or.inl (by simp)) h
      · intro q token cs acc l h
        rcases cs with _ | ⟨c, cs⟩
        · rw [Tox.shlexGo] at h
          cases h
        · rw [Tox.shlexGo] at h
          split at h
          · exact ih.1 _ _ _ _ _ (Or.inr rfl) h
          · exact ih.2 _ _ _ _ _ h

theorem shlexGo_start_nonblank :
    ∀ (f : Nat) (cs : Tox.Str) (acc l : List Tox.Str),
      Tox.shlexGo f .start cs acc = .ok l →
      Tox.blankCmd f cs = false → acc.length < l.length := by
  intro f
  induction f with
  | zero =>
      intro cs acc l h hb
      rcases cs with _ | ⟨c, cs⟩
      · cases hb
      · rw [Tox.shlexGo] at h
        cases h
  | succ f ih =>
      intro cs acc l h hb
      rcases cs with _ | ⟨c, cs⟩
      · cases hb
      · rw [Tox.shlexGo] at h
        rw [Tox.blankCmd] at hb
        split at h
        · rename_i hws
          rw [if_pos hws] at hb
          exact ih cs acc l h hb
        · rename_i hws
          rw [if_neg hws] at hb
          split at h
          · rename_i hcm
            rw [if_pos hcm] at hb
            exact ih (Tox.dropLine cs) acc l h hb
          · split at h
            · exact (shlexGo_emits f).2 _ _ _ _ _ h
            · exact (shlexGo_emits f).1 _ _ _ _ _ (Or.inl (by simp)) h

theorem shlexSplit_nonblank {t : Tox.Str} {l : List Tox.Str}
    (h : Tox.shlexSplit t = .ok l)
    (hb : Tox.blankCmd (t.length + 1) t = false) : l ≠ [] := by
  have := shlexGo_start_nonblank (t.length + 1) t [] l h hb
  intro hl
  rw [hl] at this
  simp at this

theorem processcommand_eq_projT (ctx : Tox.Ctx) (fuel : Nat)
    (st : Tox.RState) (cmd : Tox.Str) :
    Tox.processcommand ctx fuel st cmd =
      Tox.projPairR (Tox.processcommandT ctx fuel st cmd) := by
  rw [Tox.processcommand, Tox.processcommandT]
  rcases hb : Tox.buildCommand ctx fuel (Tox.cmdWords cmd) [] st with ⟨st₁, r₁⟩
  rcases r₁ with e | newcmd
  · rfl
  · simp only []
    rcases hs : Tox.shlexSplit newcmd with e | argv
    · rfl
    · rfl

theorem processcommandT_splits {ctx : Tox.Ctx} {fuel : Nat}
    {st st₁ : Tox.RState} {cmd : Tox.Str} {p : Tox.Str × List Tox.Str}
    (h : Tox.processcommandT ctx fuel st cmd = (st₁, .ok p)) :
    Tox.shlexSplit p.1 = .ok p.2 := by
  rw [Tox.processcommandT] at h
  rcases hb : Tox.buildCommand ctx fuel (Tox.cmdWords cmd) [] st with ⟨st₂, r₂⟩
  rw [hb] at h
  rcases r₂ with e | newcmd
  · cases h
  · simp only [] at h
    rcases hs : Tox.shlexSplit newcmd with e | argv
    · rw [hs] at h
      cases h
    · rw [hs] at h
      cases h
      exact hs

theorem gavLinesT_proj
    (replaceC : Tox.Str → Tox.RState → Tox.RState × Except Tox.RErr Tox.Str)
    (spliceT : Tox.Str → Tox.RState →
      Tox.RState × Except Tox.RErr (List (Tox.Str × List Tox.Str)))
    (pcT : Tox.Str → Tox.RState →
      Tox.RState × Except Tox.RErr (Tox.Str × List Tox.Str))
    (splice : Tox.Str → Tox.RState →
      Tox.RState × Except Tox.RErr (List (List Tox.Str)))
    (pc : Tox.Str → Tox.RState → Tox.RState × Except Tox.RErr (List Tox.Str))
    (hpc : ∀ s st, pc s st = Tox.projPairR (pcT s st))
    (hsp : ∀ s st, splice s st = Tox.projListR (spliceT s st)) :
    ∀ (lines : List Tox.Str) (cur : Tox.Str) (st : Tox.RState),
      Tox.gavLines replaceC splice pc lines cur st =
        Tox.projListR (Tox.gavLinesT replaceC spliceT pcT lines cur st) := by
  intro lines
  induction lines with
  | nil =>
      intro cur st
      rw [Tox.gavLines, Tox.gavLinesT]
      by_cases hc : cur.isEmpty = true
      · rw [if_pos hc, if_pos hc]
        rfl
      · rw [if_neg hc, if_neg hc]
        rfl
  | cons line rest ih =>
      intro cur st
      rw [Tox.gavLines, Tox.gavLinesT]
      simp only []
      by_cases h₁ : (Tox.pyRstrip line).isEmpty = true
      · rw [if_pos h₁, if_pos h₁]
        exact ih cur st
      · rw [if_neg h₁, if_neg h₁]
        by_cases h₂ : (Tox.pyRstrip line).getLastD ' ' = '\\'
        · rw [if_pos h₂, if_pos h₂]
          exact ih _ st
        · rw [if_neg h₂, if_neg h₂]
          by_cases h₃ : Tox.is_section_substitution (cur ++ Tox.pyRstrip line) = true
          · rw [if_pos h₃, if_pos h₃]
            rcases hr : replaceC (cur ++ Tox.pyRstrip line) st with ⟨st₁, r₁⟩
            rcases r₁ with e | replaced
            · rfl
            · simp only []
              have hsp₁ := hsp replaced st₁
              rcases hspl : spliceT replaced st₁ with ⟨st₂, r₂⟩
              rw [hspl] at hsp₁
              rw [hsp₁]
              rcases r₂ with e | ps₁
              · rfl
              · simp only [Tox.projListR]
                have ih₁ := ih [] st₂
                rcases hrest : Tox.gavLinesT replaceC spliceT pcT rest [] st₂
                  with ⟨st₃, r₃⟩
                rw [hrest] at ih₁
                rw [ih₁]
                rcases r₃ with e | ps₂
                · rfl
                · simp [Tox.projListR]
          · rw [if_neg h₃, if_neg h₃]
            have hpc₁ := hpc (cur ++ Tox.pyRstrip line) st
            rcases hp : pcT (cur ++ Tox.pyRstrip line) st with ⟨st₁, r₁⟩
            rw [hp] at hpc₁
            rw [hpc₁]
            rcases r₁ with e | p
            · rfl
            · simp only [Tox.projPairR]
              have ih₁ := ih [] st₁
              rcases hrest : Tox.gavLinesT replaceC spliceT pcT rest [] st₁
                with ⟨st₂, r₂⟩
              rw [hrest] at ih₁
              rw [ih₁]
              rcases r₂ with e | ps₂
              · rfl
              · simp [Tox.projListR]

theorem getargvlist_eq_projT (ctx : Tox.Ctx) :
    ∀ (n : Nat) (block : Tox.Str) (st : Tox.RState),
      Tox.getargvlist ctx n block st =
        Tox.projListR (Tox.getargvlistT ctx n block st) := by
  intro n
  induction n with
  | zero =>
      intro block st
      rfl
  | succ n ih =>
      intro block st
      rw [Tox.getargvlist, Tox.getargvlistT]
      exact gavLinesT_proj _ _ _ _ _
        (fun s st₁ => processcommand_eq_projT ctx (n + 1) st₁ s)
        (fun s st₁ => ih s st₁)
        (Tox.pySplitlines block) [] st

theorem gavLinesT_mem
    (Q : Tox.Str × List Tox.Str → Prop)
    (replaceC : Tox.Str → Tox.RState → Tox.RState × Except Tox.RErr Tox.Str)
    (spliceT : Tox.Str → Tox.RState →
      Tox.RState × Except Tox.RErr (List (Tox.Str × List Tox.Str)))
    (pcT : Tox.Str → Tox.RState →
      Tox.RState × Except Tox.RErr (Tox.Str × List Tox.Str))
    (hpc : ∀ s st₁ st₂ p, pcT s st₁ = (st₂, .ok p) → Q p)
    (hsp : ∀ s st₁ st₂ ps, spliceT s st₁ = (st₂, .ok ps) → ∀ p ∈ ps, Q p) :
    ∀ (lines : List Tox.Str) (cur : Tox.Str) (st st₁ : Tox.RState)
      (ps : List (Tox.Str × List Tox.Str)),
      Tox.gavLinesT replaceC spliceT pcT lines cur st = (st₁, .ok ps) →
      ∀ p ∈ ps, Q p := by
  intro lines
  induction lines with
  | nil =>
      intro cur st st₁ ps h p hp
      rw [Tox.gavLinesT] at h
      split at h
      · cases h
        cases hp
      · cases h
  | cons line rest ih =>
      intro cur st st₁ ps h p hp
      rw [Tox.gavLinesT] at h
      simp only [] at h
      by_cases h₁ : (Tox.pyRstrip line).isEmpty = true
      · rw [if_pos h₁] at h
        exact ih cur st st₁ ps h p hp
      · rw [if_neg h₁] at h
        by_cases h₂ : (Tox.pyRstrip line).getLastD ' ' = '\\'
        · rw [if_pos h₂] at h
          exact ih _ st st₁ ps h p hp
        · rw [if_neg h₂] at h
          by_cases h₃ : Tox.is_section_substitution (cur ++ Tox.pyRstrip line) = true
          · rw [if_pos h₃] at h
            rcases hr : replaceC (cur ++ Tox.pyRstrip line) st with ⟨st₂, r₂⟩
            rw [hr] at h
            rcases r₂ with e | replaced
            · cases h
            · simp only [] at h
              rcases hspl : spliceT replaced st₂ with ⟨st₃, r₃⟩
              rw [hspl] at h
              rcases r₃ with e | ps₁
              · cases h
              · simp only [] at h
                rcases hrest : Tox.gavLinesT replaceC spliceT pcT rest [] st₃
                  with ⟨st₄, r₄⟩
                rw [hrest] at h
                rcases r₄ with e | ps₂
                · cases h
                · simp only [] at h
                  cases h
                  rcases List.mem_append.mp hp with hm | hm
                  · exact hsp _ _ _ _ hspl p hm
                  · exact ih [] _ _ _ hrest p hm
          · rw [if_neg h₃] at h
            rcases hp₁ : pcT (cur ++ Tox.pyRstrip line) st with ⟨st₂, r₂⟩
            rw [hp₁] at h
            rcases r₂ with e | p₁
            · cases h
            · simp only [] at h
              rcases hrest : Tox.gavLinesT replaceC spliceT pcT rest [] st₂
                with ⟨st₃, r₃⟩
              rw [hrest] at h
              rcases r₃ with e | ps₂
              · cases h
              · simp only [] at h
                cases h
                rcases List.mem_cons.mp hp with hm | hm
                · rw [hm]
                  exact hpc _ _ _ _ hp₁
                · exact ih [] _ _ _ hrest p hm

theorem getargvlistT_mem :
    ∀ (n : Nat) (ctx : Tox.Ctx) (block : Tox.Str) (st st₁ : Tox.RState)
      (ps : List (Tox.Str × List Tox.Str)),
      Tox.getargvlistT ctx n block st = (st₁, .ok ps) →
      ∀ p ∈ ps, Tox.shlexSplit p.1 = .ok p.2 := by
  intro n
  induction n with
  | zero =>
      intro ctx block st st₁ ps h
      rw [Tox.getargvlistT] at h
      cases h
  | succ n ih =>
      intro ctx block st st₁ ps h
      rw [Tox.getargvlistT] at h
      refine gavLinesT_mem (fun p => Tox.shlexSplit p.1 = .ok p.2) _ _ _
        ?_ ?_ (Tox.pySplitlines block) [] st st₁ ps h
      · intro s st₂ st₃ p hp
        exact processcommandT_splits hp
      · intro s st₂ st₃ cs hs p hp
        exact ih ctx s st₂ st₃ cs hs p hp

/-- Claim C6 (amended): the instrumented argv-list builder
`getargvlistT` — which has the same control flow as `getargvlist` and
records, for each output vector, the fully substituted command string
that `processcommand` handed to the shell lexer — produces, on an
error-free run, exactly the pairs whose second components are the
vectors of `getargvlist`, in order; each vector is the posix shell
splitting of its own recorded substituted command, and is non-empty
whenever that command is not blank (not only whitespace and comments).
A command whose placeholders expand to nothing — such as
`\x7bposargs\x7d` with no positional arguments — substitutes to a
blank string and yields an empty vector. -/
theorem c6_vectors_amended (n : Nat) (ctx : Tox.Ctx) (block : Tox.Str)
    (st st₁ : Tox.RState) (cmds : List (List Tox.Str))
    (h : Tox.getargvlist ctx n block st = (st₁, .ok cmds)) :
    ∃ ps, Tox.getargvlistT ctx n block st = (st₁, .ok ps) ∧
      cmds = ps.map (fun p => p.2) ∧
      ∀ p ∈ ps, Tox.shlexSplit p.1 = .ok p.2 ∧
        (Tox.blankCmd (p.1.length + 1) p.1 = false → p.2 ≠ []) := by
  have hproj := getargvlist_eq_projT ctx n block st
  rw [h] at hproj
  rcases hT : Tox.getargvlistT ctx n block st with ⟨st₂, r₂⟩
  rw [hT] at hproj
  rcases r₂ with e | ps
  · rw [Tox.projListR] at hproj
    simp at hproj
  · rw [Tox.projListR] at hproj
    cases hproj
    refine ⟨ps, rfl, rfl, ?_⟩
    intro p hp
    have hs := getargvlistT_mem n ctx block st _ ps hT p hp
    exact ⟨hs, fun hb => shlexSplit_nonblank hs hb⟩

/-- Claim C6 (witness for the amended statement): for the
single-command block `cmd1`, the instrumented builder records exactly
the pair `(cmd1, [cmd1])`: the vector `[cmd1]` is the splitting of the
non-blank substituted command `cmd1` and is non-empty. -/
theorem c6_vectors_amended_witness :
    ∃ ps, Tox.getargvlistT
        ⟨[], [], fun _ => none, ":".data, "t".data, [], none⟩ 1
        ("cmd1".data) Tox.st0 = (Tox.st0, .ok ps) ∧
      [["cmd1".data]] = ps.map (fun p => p.2) ∧
      ∀ p ∈ ps, Tox.shlexSplit p.1 = .ok p.2 ∧
        (Tox.blankCmd (p.1.length + 1) p.1 = false → p.2 ≠ []) :=
  c6_vectors_amended 1
    ⟨[], [], fun _ => none, ":".data, "t".data, [], none⟩
    ("cmd1".data) Tox.st0 Tox.st0 [["cmd1".data]] rfl

end ToxClaims
